import Mathlib

set_option maxHeartbeats 1000000

/-!
Shallow embedding of `watertap/core/util/model_diagnostics/mis.py`, the
Minimal Intractable System (MIS) finder.

Numeric variable and slack values are modelled as rationals, solver calls as
an external oracle (the solve capability of the spec), and the Pyomo model
objects as explicit record state.  Python exceptions are modelled by an
explicit exit kind threaded through the driver.
-/

/-- Python substring membership, `pat in l`, on lists of characters. -/
def infixBool (pat : List Char) : List Char → Bool
  | [] => pat.isEmpty
  | c :: t => pat.isPrefixOf (c :: t) || infixBool pat t

/-- Python `pat in s` for strings. -/
def strContains (s pat : String) : Bool := infixBool pat.data s.data

/-- Python `s.startswith(pat)`. -/
def strStarts (s pat : String) : Bool := pat.data.isPrefixOf s.data

/-- Python `s[n:]`. -/
def strDropN (n : Nat) (s : String) : String := String.mk (s.data.drop n)

/-- A Pyomo variable as the transform layer sees it: fully qualified name,
effective lower/upper bounds (`v.bounds`, the combination of declared bounds
and domain restriction), the domain name, and the fixed flag. -/
structure TVar where
  name : String
  lb : Option ℚ
  ub : Option ℚ
  domain : String
  fixed : Bool
deriving DecidableEq

/-- A Pyomo constraint data object: fully qualified name, local name,
relational content `lo <= body <= hi` (body is the name of the variable for
synthesized bound constraints), equality classification, whether the object
lives in the `_variable_bounds` block, and the active flag. -/
structure MCon where
  name : String
  localName : String
  lo : Option ℚ
  body : String
  hi : Option ℚ
  equality : Bool
  isBound : Bool
  active : Bool
deriving DecidableEq

/-- The immutable identity of a constraint object, as stored in the
`ComponentSet`s (elastic filter, deletion filter, guards). -/
structure ConRef where
  name : String
  localName : String
deriving DecidableEq

def MCon.ref (c : MCon) : ConRef := ⟨c.name, c.localName⟩

/-- Modelled from the spec: `unique_component_name(instance, "_variable_bounds")`
is external Pyomo code; per the spec the synthesized constraints go into a
dedicated sub-block, whose name we take to be `_variable_bounds`. -/
def boundBlockName : String := "_variable_bounds"

/-- The constraint `pyo.Constraint(expr=(lb, v, None))` added under the local
name `"lb_for_" + var_name` (mis.py lines 42-45). -/
def mkLbCon (varName : String) (l : ℚ) : MCon :=
  { name := boundBlockName ++ "." ++ ("lb_for_" ++ varName)
    localName := "lb_for_" ++ varName
    lo := some l, body := varName, hi := none
    equality := false, isBound := true, active := true }

/-- The constraint `pyo.Constraint(expr=(None, v, ub))` added under the local
name `"ub_for_" + var_name` (mis.py lines 46-49). -/
def mkUbCon (varName : String) (u : ℚ) : MCon :=
  { name := boundBlockName ++ "." ++ ("ub_for_" ++ varName)
    localName := "ub_for_" ++ varName
    lo := none, body := varName, hi := some u
    equality := false, isBound := true, active := true }

/-- Lines 51-54: `v.domain = pyo.Reals; v.setlb(None); v.setub(None)`. -/
def stripVarBounds (v : TVar) : TVar := { v with domain := "Reals", lb := none, ub := none }

/-- `_VariableBoundsAsConstraints._apply_to` (mis.py lines 29-54): walk the
variables in order; skip fixed variables; skip variables with no finite
bound; otherwise synthesize one constraint per finite bound into the
`_variable_bounds` block and strip the variable's bounds and domain.
Returns the transformed variable list and the bound block's constraints. -/
def variableBoundsAsConstraints : List TVar → List TVar × List MCon
  | [] => ([], [])
  | v :: rest =>
    let out := variableBoundsAsConstraints rest
    if v.fixed then (v :: out.1, out.2)
    else if v.lb = none ∧ v.ub = none then (v :: out.1, out.2)
    else
      let lbcs : List MCon := match v.lb with | some l => [mkLbCon v.name l] | none => []
      let ubcs : List MCon := match v.ub with | some u => [mkUbCon v.name u] | none => []
      (stripVarBounds v :: out.1, lbcs ++ ubcs ++ out.2)

/-- The body of `_get_results_with_value` for one yielded pair (mis.py lines
294-305): bound-block constraints are rendered via their local name's `lb`/`ub`
substring, anything else by its constraint name; an unrecognized bound-block
local name raises `RuntimeError("unrecongized var name")`. -/
def renderWithValue (cName cLocal : String) (value : ℚ) : Except String String :=
  if strContains cName "_variable_bounds" then
    if strContains cLocal "lb" then
      Except.ok ("\tlb of var " ++ strDropN 7 cLocal ++ " by " ++ toString value ++ "\n")
    else if strContains cLocal "ub" then
      Except.ok ("\tub of var " ++ strDropN 7 cLocal ++ " by " ++ toString value ++ "\n")
    else Except.error "unrecongized var name"
  else Except.ok ("\tconstraint: " ++ cName ++ " by " ++ toString value ++ "\n")

/-- The body of `_get_results` for one constraint (mis.py lines 312-323). -/
def renderPlain (cName cLocal : String) : Except String String :=
  if strContains cName "_variable_bounds" then
    if strContains cLocal "lb" then
      Except.ok ("\tlb of var " ++ strDropN 7 cLocal ++ "\n")
    else if strContains cLocal "ub" then
      Except.ok ("\tub of var " ++ strDropN 7 cLocal ++ "\n")
    else Except.error "unrecongized var name"
  else Except.ok ("\tconstraint: " ++ cName ++ "\n")

/-- `_get_results` (mis.py lines 309-324) over a list of constraint
references, threading the message. -/
def get_results : List ConRef → String → Except String String
  | [], msg => Except.ok msg
  | c :: rest, msg =>
    match renderPlain c.name c.localName with
    | Except.error e => Except.error e
    | Except.ok line => get_results rest (msg ++ line)

/-- Modelled from the spec: the external solve capability has three outcomes
(optimal termination, non-optimal termination, raised evaluation failure). -/
inductive SolveOutcome
  | optimal
  | nonOptimal
  | failure
deriving DecidableEq

/-- Modelled from the spec: one call of the solve capability returns an
outcome and leaves values on the solved model's unfixed variables; we record
the values it would leave as assignment functions keyed by component name. -/
structure SolveResult where
  outcome : SolveOutcome
  varAssign : String → ℚ
  slackAssign : String → ℚ

/-- A slack variable of `modified_model._core_add_slack_variables`: the slack
pair of the constraint named `owner`, the plus or minus member, its current
value and its fixed flag.  Modelled from the spec: `AddSlackVariables` is
external Pyomo code; per the spec it creates one nonnegative plus/minus pair
per constraint, named from the constraint's name. -/
structure Slack where
  owner : String
  plus : Bool
  value : ℚ
  fixed : Bool
deriving DecidableEq

/-- The slack variable's local name, `_slack_plus_{c.name}` or
`_slack_minus_{c.name}`; `_get_constraint` (mis.py lines 327-343) recovers
`owner` from it. -/
def slackName (s : Slack) : String :=
  (if s.plus then "_slack_plus_" else "_slack_minus_") ++ s.owner

/-- An objective data object (only its active flag matters to the driver). -/
structure Objv where
  name : String
  active : Bool
deriving DecidableEq

/-- The `nl` writer registered before the routine starts
(`_default_nl_writer`, mis.py line 20). -/
def defaultWriter : String := "nl_default"

/-- The mutable state of one `compute_infeasibility_explanation` run:
the original model's variable values, the clone's variable values, the
clone's constraints, objectives and slack variables, the elastic filter and
`fixed_slacks` sets, the deletion filter and guard lists, the report message,
the currently registered `nl` writer, and observation counters (number of
solver calls made, number of deletion-sweep member tests run, number of
write-backs into the original model). -/
structure DState where
  origVals : List (String × ℚ)
  modVals : List (String × ℚ)
  cons : List MCon
  objs : List Objv
  slacks : List Slack
  filter : List ConRef
  fixedSlacks : List String
  misList : List ConRef
  guards : List ConRef
  msg : String
  writer : String
  solveCount : Nat
  sweepTests : Nat
  writeBackCount : Nat

/-- How the routine's control flow ended: normal return, a propagated Python
exception carrying its message, or exhaustion of the loop fuel used to model
the phase-1 `while True` loop. -/
inductive ExitKind
  | normal
  | raised (msg : String)
  | fuelOut
deriving DecidableEq

/-- The run's fixed context: the solver oracle (call number to result), the
feasibility tolerance, the model's name, and the cached starting variable
values (`_value_cache` / `_modified_model_value_cache`, which agree on the
clone's variable names). -/
structure Ctx where
  oracle : Nat → SolveResult
  tol : ℚ
  modelName : String
  cache : List (String × ℚ)

/-- The elasticized clone handed to the driver: constraints (bound-block and
original), objectives and the slack variables created by `AddSlackVariables`. -/
structure MisInput where
  cons : List MCon
  objs : List Objv
  slacks : List Slack

/-- Pyomo `find_component` over our constraint list. -/
def findCon (cons : List MCon) (n : String) : Option MCon :=
  cons.find? (fun c => c.name == n)

/-- The values a solver call leaves on a model's variables. -/
def assignVals (f : String → ℚ) (vals : List (String × ℚ)) : List (String × ℚ) :=
  vals.map (fun p => (p.1, f p.1))

/-- `solver.solve(modified_model, tee=tee)`: values land on the clone's
variables and on its unfixed slack variables, and the call counter advances. -/
def solveModified (ctx : Ctx) (st : DState) : DState × SolveOutcome :=
  let r := ctx.oracle st.solveCount
  ({ st with
      modVals := assignVals r.varAssign st.modVals
      slacks := st.slacks.map (fun s =>
        if s.fixed then s else { s with value := r.slackAssign (slackName s) })
      solveCount := st.solveCount + 1 }, r.outcome)

/-- `solver.solve(model, tee=tee)` on the caller's original model (mis.py
line 224): values land on the original model's variables. -/
def solveOriginal (ctx : Ctx) (st : DState) : DState × SolveOutcome :=
  let r := ctx.oracle st.solveCount
  ({ st with
      origVals := assignVals r.varAssign st.origVals
      solveCount := st.solveCount + 1 }, r.outcome)

/-- Lines 132-141: for every constraint of the `_variable_bounds` block,
unfix its plus/minus slacks; `assert not (plus is None and minus is None)`
raises when a bound constraint has no slack pair at all. -/
def unfixBoundSlacks : List MCon → List Slack → Except Unit (List Slack)
  | [], sl => Except.ok sl
  | c :: rest, sl =>
    if c.isBound then
      if sl.any (fun s => s.owner == c.name) then
        unfixBoundSlacks rest
          (sl.map (fun s => if s.owner == c.name then { s with fixed := false } else s))
      else Except.error ()
    else unfixBoundSlacks rest sl

/-- Lines 129-141: fix every slack at zero, then unfix the slacks belonging
to the synthesized bound constraints. -/
def setupSlacks (cons : List MCon) (slacks : List Slack) : Except Unit (List Slack) :=
  unfixBoundSlacks cons (slacks.map (fun s => { s with value := 0, fixed := true }))

/-- One completed pass of `_constraint_generator` as consumed by
`_get_results_with_value` (mis.py lines 171-183): walk the slack variables in
order; each slack whose value is strictly greater than the tolerance is
yielded with its owning constraint (rendered into the message before the
generator resumes), then fixed at zero, added to `fixed_slacks`, and its
owner added to the elastic filter.  A failed constraint lookup or an
unrecognized bound-constraint name raises (`err` is set and the remaining
slacks are left unprocessed, matching the suspended generator). -/
structure ScanOut where
  slacks : List Slack
  filter : List ConRef
  fixedSlacks : List String
  msg : String
  records : List (ConRef × ℚ)
  err : Bool

def insertRef (c : ConRef) (l : List ConRef) : List ConRef :=
  if c ∈ l then l else l ++ [c]

def insertStr (n : String) (l : List String) : List String :=
  if n ∈ l then l else l ++ [n]

def constraint_generator (tol : ℚ) (cons : List MCon) :
    List Slack → List ConRef → List String → String → ScanOut
  | [], filter, fixedS, msg => ⟨[], filter, fixedS, msg, [], false⟩
  | s :: rest, filter, fixedS, msg =>
    if tol < s.value then
      match findCon cons s.owner with
      | none => ⟨s :: rest, filter, fixedS, msg, [], true⟩
      | some c =>
        match renderWithValue c.name c.localName s.value with
        | Except.error _ => ⟨s :: rest, filter, fixedS, msg, [], true⟩
        | Except.ok line =>
          let out := constraint_generator tol cons rest
            (insertRef c.ref filter) (insertStr (slackName s) fixedS) (msg ++ line)
          ⟨{ s with value := 0, fixed := true } :: out.slacks, out.filter,
            out.fixedSlacks, out.msg, (c.ref, s.value) :: out.records, out.err⟩
    else
      let out := constraint_generator tol cons rest filter fixedS msg
      ⟨s :: out.slacks, out.filter, out.fixedSlacks, out.msg, out.records, out.err⟩

/-- The `while True` body of `_constraint_loop` (mis.py lines 169-190), with
fuel standing in for the loop's (always finite) iteration count: scan the
slacks; if the elastic filter did not grow raise
`Exception("Found model ... to be feasible!")`; otherwise commit the scanned
message, reset the clone's values from the cache, re-solve; on optimal
termination append the repeat header and iterate, otherwise break. -/
def constraint_loop_while (ctx : Ctx) (relaxedThings : String) :
    Nat → DState → DState × ExitKind
  | 0, st => (st, ExitKind.fuelOut)
  | Nat.succ fuel, st =>
    let out := constraint_generator ctx.tol st.cons st.slacks st.filter st.fixedSlacks st.msg
    let stm := { st with slacks := out.slacks, filter := out.filter,
                         fixedSlacks := out.fixedSlacks }
    if out.err then (stm, ExitKind.raised "unrecongized var name")
    else if out.filter.length = st.filter.length then
      (stm, ExitKind.raised ("Found model " ++ ctx.modelName ++ " to be feasible!"))
    else
      let st2 := { stm with msg := out.msg, modVals := ctx.cache }
      let so := solveModified ctx st2
      match so.2 with
      | SolveOutcome.failure => (so.1, ExitKind.raised "solver evaluation failure")
      | SolveOutcome.optimal =>
        constraint_loop_while ctx relaxedThings fuel
          { so.1 with msg := so.1.msg ++
              "Another feasible solution was found with only the following " ++
              relaxedThings ++ " relaxed:\n" }
      | SolveOutcome.nonOptimal => (so.1, ExitKind.normal)

/-- `_constraint_loop` (mis.py lines 164-191): append the phase header to the
message, then run the scan/re-solve loop. -/
def constraint_loop (ctx : Ctx) (fuel : Nat) (relaxedThings : String)
    (st : DState) : DState × ExitKind :=
  let header :=
    if st.msg = "" then
      "Model " ++ ctx.modelName ++
        " may be infeasible. A feasible solution was found with only the following " ++
        relaxedThings ++ " relaxed:\n"
    else
      "Another feasible solution was found with only the following " ++
        relaxedThings ++ " relaxed:\n"
  constraint_loop_while ctx relaxedThings fuel { st with msg := st.msg ++ header }

/-- Lines 198-204: unfix every slack whose owning constraint is not an
equality and which is not in `fixed_slacks`; `_get_constraint` raises if the
owner cannot be found (the flag records the raised `RuntimeError`). -/
def unfixNonEquality (cons : List MCon) (fixedS : List String) :
    List Slack → List Slack × Bool
  | [] => ([], false)
  | s :: rest =>
    match findCon cons s.owner with
    | none => (s :: rest, true)
    | some c =>
      let s1 := if c.equality then s
                else if slackName s ∈ fixedS then s
                else { s with fixed := false }
      let out := unfixNonEquality cons fixedS rest
      (s1 :: out.1, out.2)

/-- Lines 210-212: unfix every slack not in `fixed_slacks`. -/
def unfixRemaining (fixedS : List String) (slacks : List Slack) : List Slack :=
  slacks.map (fun s => if slackName s ∈ fixedS then s else { s with fixed := false })

/-- The full-relaxation stage of phase 1 (mis.py lines 210-218): unfix every
remaining slack, solve, and on optimal termination run the full constraint
loop. -/
def phase1c (ctx : Ctx) (fuel : Nat) (st : DState) : DState × ExitKind :=
  let st := { st with slacks := unfixRemaining st.fixedSlacks st.slacks }
  let so := solveModified ctx st
  match so.2 with
  | SolveOutcome.failure => (so.1, ExitKind.raised "solver evaluation failure")
  | r3 =>
    if r3 = SolveOutcome.optimal then
      constraint_loop ctx fuel
        "inequality constraints, equality constraints, and/or variable bounds" so.1
    else (so.1, ExitKind.normal)

/-- The inequality stage of phase 1 (mis.py lines 197-218): unfix the
non-equality slacks not in `fixed_slacks` (a failed constraint lookup raises),
solve, on optimal termination run the inequality loop, then continue with the
full-relaxation stage. -/
def phase1b (ctx : Ctx) (fuel : Nat) (st : DState) : DState × ExitKind :=
  let uo := unfixNonEquality st.cons st.fixedSlacks st.slacks
  let st := { st with slacks := uo.1 }
  if uo.2 then (st, ExitKind.raised "Bad constraint name") else
  let so := solveModified ctx st
  match so.2 with
  | SolveOutcome.failure => (so.1, ExitKind.raised "solver evaluation failure")
  | r2 =>
    let p2 := if r2 = SolveOutcome.optimal then
                constraint_loop ctx fuel
                  "inequality constraints and/or variable bounds" so.1
              else (so.1, ExitKind.normal)
    match p2 with
    | (st, ExitKind.normal) => phase1c ctx fuel st
    | p => p

/-- Phase 1 of `compute_infeasibility_explanation` (mis.py lines 159-218):
solve; on optimal termination run the bounds-only constraint loop; then the
inequality stage and the full-relaxation stage.  A solver evaluation failure
in any of these solves propagates (none is wrapped in try/except). -/
def phase1 (ctx : Ctx) (fuel : Nat) (st : DState) : DState × ExitKind :=
  let so := solveModified ctx st
  match so.2 with
  | SolveOutcome.failure => (so.1, ExitKind.raised "solver evaluation failure")
  | r1 =>
    let p1 := if r1 = SolveOutcome.optimal then
                constraint_loop ctx fuel "variable bounds" so.1
              else (so.1, ExitKind.normal)
    match p1 with
    | (st, ExitKind.normal) => phase1b ctx fuel st
    | p => p

/-- Lines 220-230: when the elastic filter is empty, write the clone's
current variable values back into the caller's original model (the variable
cross-reference map is name-preserving) and solve the original model
directly; the prints go to the console only.  The solve is not wrapped in
try/except, so an evaluation failure propagates. -/
def writeBack (ctx : Ctx) (st : DState) : DState × ExitKind :=
  let st := { st with origVals := st.modVals, writeBackCount := st.writeBackCount + 1 }
  let so := solveOriginal ctx st
  match so.2 with
  | SolveOutcome.failure => (so.1, ExitKind.raised "solver evaluation failure")
  | _ => (so.1, ExitKind.normal)

/-- Toggle the active flag of the constraint object named `n`. -/
def setConActive (cons : List MCon) (n : String) (b : Bool) : List MCon :=
  cons.map (fun c => if c.name == n then { c with active := b } else c)

/-- The deletion sweep (mis.py lines 258-278), one iteration per elastic
filter member in filter iteration order: deactivate the member, reset the
clone's values from the cache, try to solve; a raised evaluation failure
reactivates the member and records it as a guard; optimal termination
reactivates the member and records it in the deletion filter; otherwise the
member stays deactivated and is recorded nowhere. -/
def deletion_sweep (ctx : Ctx) : List ConRef → DState → DState
  | [], st => st
  | c :: rest, st =>
    let st := { st with cons := setConActive st.cons c.name false, modVals := ctx.cache }
    let so := solveModified ctx st
    let st :=
      match so.2 with
      | SolveOutcome.failure =>
        { so.1 with cons := setConActive so.1.cons c.name true, guards := so.1.guards ++ [c] }
      | SolveOutcome.optimal =>
        { so.1 with cons := setConActive so.1.cons c.name true, misList := so.1.misList ++ [c] }
      | SolveOutcome.nonOptimal => so.1
    deletion_sweep ctx rest { st with sweepTests := st.sweepTests + 1 }

/-- Phase 2 of `compute_infeasibility_explanation` (mis.py lines 232-286):
register the legacy `nl_v1` writer; fix every slack at zero; deactivate every
objective; deactivate every constraint not in the elastic filter; solve
inside `try/except` (a raised evaluation failure leaves `results = None`,
and `pyo.check_optimal_termination(None)` on line 255 then raises an
`AttributeError`, skipping the sweep AND the final writer re-registration);
if optimal report that no MIS could be determined, otherwise run the
deletion sweep and render the MIS and guard lists (a render `RuntimeError`
propagates, skipping the writer restore); finally re-register the default
writer. -/
def phase2 (ctx : Ctx) (st : DState) : DState × ExitKind :=
  let st := { st with writer := "nl_v1" }
  let st := { st with slacks := st.slacks.map (fun (s : Slack) => { s with value := 0, fixed := true }) }
  let st := { st with objs := st.objs.map (fun (o : Objv) => { o with active := false }) }
  let st := { st with cons := st.cons.map (fun (c : MCon) =>
                if c.ref ∈ st.filter then c else { c with active := false }) }
  let so := solveModified ctx st
  if so.2 = SolveOutcome.failure then (so.1, ExitKind.raised "AttributeError")
  else if so.2 = SolveOutcome.optimal then
    ({ so.1 with msg := so.1.msg ++ "Could not determine Minimal Intractable System\n",
                 writer := defaultWriter }, ExitKind.normal)
  else
    let st := deletion_sweep ctx so.1.filter so.1
    let st := { st with msg := st.msg ++ "Computed Minimal Intractable System (MIS)!\n" ++
                  "Constraints / bounds in MIS:\n" }
    match get_results st.misList st.msg with
    | Except.error e => (st, ExitKind.raised e)
    | Except.ok m1 =>
      let st := { st with msg := m1 ++ "Constraints / bounds in guards for stability:" }
      match get_results st.guards st.msg with
      | Except.error e => (st, ExitKind.raised e)
      | Except.ok m2 => ({ st with msg := m2, writer := defaultWriter }, ExitKind.normal)

/-- The driver's state at entry: the caller's values are cached, the clone's
variables are synchronized from the cache, the message is empty, the default
writer is registered and all counters are zero. -/
def initState (ctx : Ctx) (inp : MisInput) (sl : List Slack) : DState :=
  { origVals := ctx.cache, modVals := ctx.cache, cons := inp.cons, objs := inp.objs
    slacks := sl, filter := [], fixedSlacks := [], misList := [], guards := []
    msg := "", writer := defaultWriter, solveCount := 0, sweepTests := 0
    writeBackCount := 0 }

/-- `compute_infeasibility_explanation` (mis.py lines 57-288), starting after
the clone/transform/elasticize steps: set up the slacks (the assert of line
137 may raise), run phase 1, run the write-back block when the elastic
filter is empty, then run phase 2. -/
def compute_infeasibility_explanation (ctx : Ctx) (fuel : Nat) (inp : MisInput) :
    DState × ExitKind :=
  match setupSlacks inp.cons inp.slacks with
  | Except.error _ => (initState ctx inp inp.slacks, ExitKind.raised "assert")
  | Except.ok sl =>
    match phase1 ctx fuel (initState ctx inp sl) with
    | (st, ExitKind.normal) =>
      let p := if st.filter.length = 0 then writeBack ctx st else (st, ExitKind.normal)
      match p with
      | (st, ExitKind.normal) => phase2 ctx st
      | q => q
    | q => q

/-- Claim-side description (for C6): the records the scan is expected to
yield, one per slack whose value strictly exceeds the tolerance. -/
def specRecorded (tol : ℚ) (cons : List MCon) : List Slack → List (ConRef × ℚ)
  | [] => []
  | s :: rest =>
    (if tol < s.value then
      (match findCon cons s.owner with | some c => [(c.ref, s.value)] | none => [])
     else []) ++ specRecorded tol cons rest

/-- Claim-side description (for C6): `v.fix(0)`. -/
def fixZero (s : Slack) : Slack := { s with value := 0, fixed := true }

/-- Claim-side description (for C1): the sweep members whose test solve (one
oracle call per member, starting at call `k`) has the given outcome. -/
def classifyAt (oracle : Nat → SolveResult) (k : Nat) :
    List ConRef → SolveOutcome → List ConRef
  | [], _ => []
  | c :: rest, o =>
    (if (oracle k).outcome = o then [c] else []) ++ classifyAt oracle (k + 1) rest o

/-- The active flag of the constraint object named `n`. -/
def conActive (cons : List MCon) (n : String) : Bool :=
  match findCon cons n with
  | some c => c.active
  | none => false

/-- Claim-side description (for C5): the constraints the transform is
expected to synthesize for one variable. -/
def boundConsOf (v : TVar) : List MCon :=
  if v.fixed then []
  else if v.lb = none ∧ v.ub = none then []
  else
    (match v.lb with | some l => [mkLbCon v.name l] | none => []) ++
    (match v.ub with | some u => [mkUbCon v.name u] | none => [])

/-- Claim-side description (for C5): the expected after-state of one
variable under the transform. -/
def stripIfBounded (v : TVar) : TVar :=
  if v.fixed then v
  else if v.lb = none ∧ v.ub = none then v
  else stripVarBounds v

/-! ### Helper lemmas about the string operations -/

theorem infixBool_of_isPrefixOf {pat l : List Char} (h : pat.isPrefixOf l = true) :
    infixBool pat l = true := by
  cases l with
  | nil =>
    cases pat with
    | nil => rfl
    | cons a t => simp [List.isPrefixOf] at h
  | cons c t => simp [infixBool, h]

theorem infixBool_cons_ne {p0 c : Char} {pt t : List Char} (h : (p0 == c) = false) :
    infixBool (p0 :: pt) (c :: t) = infixBool (p0 :: pt) t := by
  simp [infixBool, List.isPrefixOf, h]

theorem data_lb_for (x : String) :
    ("lb_for_" ++ x).data = 'l' :: 'b' :: '_' :: 'f' :: 'o' :: 'r' :: '_' :: x.data := rfl

theorem data_ub_for (x : String) :
    ("ub_for_" ++ x).data = 'u' :: 'b' :: '_' :: 'f' :: 'o' :: 'r' :: '_' :: x.data := rfl

theorem strContains_lbfor_lb (x : String) : strContains ("lb_for_" ++ x) "lb" = true := by
  apply infixBool_of_isPrefixOf
  rw [data_lb_for]
  rfl

theorem strContains_ubfor_ub (x : String) : strContains ("ub_for_" ++ x) "ub" = true := by
  apply infixBool_of_isPrefixOf
  rw [data_ub_for]
  rfl

theorem strContains_ubfor_lb (x : String) :
    strContains ("ub_for_" ++ x) "lb" = strContains x "lb" := by
  show infixBool ("lb" : String).data ("ub_for_" ++ x).data
      = infixBool ("lb" : String).data x.data
  rw [data_ub_for]
  rw [show ("lb" : String).data = ['l', 'b'] from rfl]
  have h1 : (('l' : Char) == 'u') = false := by decide
  have h2 : (('l' : Char) == 'b') = false := by decide
  have h3 : (('l' : Char) == '_') = false := by decide
  have h4 : (('l' : Char) == 'f') = false := by decide
  have h5 : (('l' : Char) == 'o') = false := by decide
  have h6 : (('l' : Char) == 'r') = false := by decide
  rw [infixBool_cons_ne h1, infixBool_cons_ne h2, infixBool_cons_ne h3,
      infixBool_cons_ne h4, infixBool_cons_ne h5, infixBool_cons_ne h6,
      infixBool_cons_ne h3]

theorem strContains_blockdot_vb (x : String) :
    strContains (boundBlockName ++ "." ++ x) "_variable_bounds" = true := by
  apply infixBool_of_isPrefixOf
  rw [show (boundBlockName ++ "." ++ x).data
      = '_' :: 'v' :: 'a' :: 'r' :: 'i' :: 'a' :: 'b' :: 'l' :: 'e' :: '_' :: 'b' :: 'o'
        :: 'u' :: 'n' :: 'd' :: 's' :: '.' :: x.data from rfl]
  rfl

theorem strDropN7_lbfor (x : String) : strDropN 7 ("lb_for_" ++ x) = x := by
  show String.mk (("lb_for_" ++ x).data.drop 7) = x
  rw [data_lb_for]
  show String.mk x.data = x
  rfl

theorem strDropN7_ubfor (x : String) : strDropN 7 ("ub_for_" ++ x) = x := by
  show String.mk (("ub_for_" ++ x).data.drop 7) = x
  rw [data_ub_for]
  show String.mk x.data = x
  rfl

theorem strAppend_left_cancel {p a b : String} (h : p ++ a = p ++ b) : a = b := by
  have hd : p.data ++ a.data = p.data ++ b.data := by
    have h2 := congrArg String.data h
    simpa using h2
  have h3 : a.data = b.data := List.append_cancel_left hd
  cases a
  cases b
  exact congrArg String.mk h3

theorem lbfor_ne_ubfor (a b : String) : "lb_for_" ++ a ≠ "ub_for_" ++ b := by
  intro h
  have h1 : ("lb_for_" ++ a).data.head? = some 'l' := rfl
  rw [h] at h1
  have h2 : ("ub_for_" ++ b).data.head? = some 'u' := rfl
  rw [h2] at h1
  exact absurd h1 (by decide)

theorem strStarts_append (p x : String) : strStarts (p ++ x) p = true := by
  show p.data.isPrefixOf (p ++ x).data = true
  rw [String.data_append]
  simp [List.isPrefixOf_iff_prefix, List.prefix_append]

/-! ### The bound-to-constraint transform -/

theorem vbac_fst (vars : List TVar) :
    (variableBoundsAsConstraints vars).1 = vars.map stripIfBounded := by
  induction vars with
  | nil => rfl
  | cons v rest ih =>
    cases hf : v.fixed with
    | true => simp [variableBoundsAsConstraints, stripIfBounded, hf, ih]
    | false =>
      by_cases hb : v.lb = none ∧ v.ub = none
      · simp [variableBoundsAsConstraints, stripIfBounded, hf, hb, ih]
      · simp [variableBoundsAsConstraints, stripIfBounded, hf, hb, ih]

theorem vbac_snd (vars : List TVar) :
    (variableBoundsAsConstraints vars).2 = vars.flatMap boundConsOf := by
  induction vars with
  | nil => rfl
  | cons v rest ih =>
    cases hf : v.fixed with
    | true => simp [variableBoundsAsConstraints, boundConsOf, hf, ih]
    | false =>
      by_cases hb : v.lb = none ∧ v.ub = none
      · simp [variableBoundsAsConstraints, boundConsOf, hf, hb, ih]
      · simp [variableBoundsAsConstraints, boundConsOf, hf, hb, ih]

theorem mem_boundConsOf {c : MCon} {w : TVar} (hc : c ∈ boundConsOf w) :
    (∃ l, w.lb = some l ∧ c = mkLbCon w.name l) ∨
    (∃ u, w.ub = some u ∧ c = mkUbCon w.name u) := by
  cases hf : w.fixed with
  | true => simp [boundConsOf, hf] at hc
  | false =>
    by_cases hb : w.lb = none ∧ w.ub = none
    · simp [boundConsOf, hf, hb] at hc
    · rw [boundConsOf] at hc
      simp only [hf, Bool.false_eq_true, if_false, hb, List.mem_append] at hc
      rcases hc with hc | hc
      · left
        cases hl : w.lb with
        | none => rw [hl] at hc; simp at hc
        | some l =>
          rw [hl] at hc
          simp at hc
          exact ⟨l, rfl, hc⟩
      · right
        cases hu : w.ub with
        | none => rw [hu] at hc; simp at hc
        | some u =>
          rw [hu] at hc
          simp at hc
          exact ⟨u, rfl, hc⟩

theorem countP_boundConsOf_lb_ne {w : TVar} {nm : String} (h : w.name ≠ nm) :
    (boundConsOf w).countP (fun c => c.localName == "lb_for_" ++ nm) = 0 := by
  rw [List.countP_eq_zero]
  intro c hc
  rcases mem_boundConsOf hc with ⟨l, _, hcl⟩ | ⟨u, _, hcu⟩
  · subst hcl
    simp only [mkLbCon, beq_iff_eq]
    intro habs
    exact h (strAppend_left_cancel habs)
  · subst hcu
    simp only [mkUbCon, beq_iff_eq]
    intro habs
    exact absurd habs.symm (lbfor_ne_ubfor nm w.name)

theorem countP_boundConsOf_ub_ne {w : TVar} {nm : String} (h : w.name ≠ nm) :
    (boundConsOf w).countP (fun c => c.localName == "ub_for_" ++ nm) = 0 := by
  rw [List.countP_eq_zero]
  intro c hc
  rcases mem_boundConsOf hc with ⟨l, _, hcl⟩ | ⟨u, _, hcu⟩
  · subst hcl
    simp only [mkLbCon, beq_iff_eq]
    intro habs
    exact absurd habs (lbfor_ne_ubfor w.name nm)
  · subst hcu
    simp only [mkUbCon, beq_iff_eq]
    intro habs
    exact h (strAppend_left_cancel habs)

theorem countP_boundConsOf_body_ne {w : TVar} {nm : String} (h : w.name ≠ nm) :
    (boundConsOf w).countP (fun c => c.body == nm) = 0 := by
  rw [List.countP_eq_zero]
  intro c hc
  rcases mem_boundConsOf hc with ⟨l, _, hcl⟩ | ⟨u, _, hcu⟩ <;> subst_vars <;>
    simpa [mkLbCon, mkUbCon] using h

theorem countP_boundConsOf_lb_self {v : TVar} (hf : v.fixed = false) {l : ℚ}
    (hl : v.lb = some l) :
    (boundConsOf v).countP (fun c => c.localName == "lb_for_" ++ v.name) = 1 ∧
    mkLbCon v.name l ∈ boundConsOf v := by
  have hb : ¬(v.lb = none ∧ v.ub = none) := by simp [hl]
  rw [boundConsOf]
  simp only [hf, Bool.false_eq_true, if_false, hb, hl]
  cases hu : v.ub with
  | none => simp [mkLbCon]
  | some u =>
    have hne : ¬("ub_for_" ++ v.name = "lb_for_" ++ v.name) :=
      fun habs => absurd habs.symm (lbfor_ne_ubfor v.name v.name)
    constructor
    · simp [List.countP_cons, List.countP_append, mkLbCon, mkUbCon, hne]
    · simp

theorem countP_boundConsOf_lb_none {v : TVar} (hl : v.lb = none) :
    (boundConsOf v).countP (fun c => c.localName == "lb_for_" ++ v.name) = 0 := by
  rw [List.countP_eq_zero]
  intro c hc
  rcases mem_boundConsOf hc with ⟨l2, hl2, _⟩ | ⟨u, _, hcu⟩
  · rw [hl] at hl2; exact absurd hl2 (by simp)
  · subst hcu
    simp only [mkUbCon, beq_iff_eq]
    intro habs
    exact absurd habs.symm (lbfor_ne_ubfor v.name v.name)

theorem countP_boundConsOf_ub_self {v : TVar} (hf : v.fixed = false) {u : ℚ}
    (hu : v.ub = some u) :
    (boundConsOf v).countP (fun c => c.localName == "ub_for_" ++ v.name) = 1 ∧
    mkUbCon v.name u ∈ boundConsOf v := by
  have hb : ¬(v.lb = none ∧ v.ub = none) := by simp [hu]
  rw [boundConsOf]
  simp only [hf, Bool.false_eq_true, if_false, hb, hu]
  cases hl : v.lb with
  | none => simp [mkUbCon]
  | some l =>
    have hne : ¬("lb_for_" ++ v.name = "ub_for_" ++ v.name) :=
      fun habs => absurd habs (lbfor_ne_ubfor v.name v.name)
    constructor
    · simp [List.countP_cons, List.countP_append, mkLbCon, mkUbCon, hne]
    · simp

theorem countP_boundConsOf_ub_none {v : TVar} (hu : v.ub = none) :
    (boundConsOf v).countP (fun c => c.localName == "ub_for_" ++ v.name) = 0 := by
  rw [List.countP_eq_zero]
  intro c hc
  rcases mem_boundConsOf hc with ⟨l, _, hcl⟩ | ⟨u2, hu2, _⟩
  · subst hcl
    simp only [mkLbCon, beq_iff_eq]
    intro habs
    exact absurd habs (lbfor_ne_ubfor v.name v.name)
  · rw [hu] at hu2; exact absurd hu2 (by simp)

theorem countP_boundConsOf_fixed {v : TVar} (hf : v.fixed = true) (p : MCon → Bool) :
    (boundConsOf v).countP p = 0 := by
  simp [boundConsOf, hf]

theorem countP_flatMap_zero {f : TVar → List MCon} {p : MCon → Bool} {l : List TVar}
    (h : ∀ w ∈ l, (f w).countP p = 0) : (l.flatMap f).countP p = 0 := by
  rw [List.countP_eq_zero]
  intro c hc
  rw [List.mem_flatMap] at hc
  obtain ⟨w, hw, hcw⟩ := hc
  have h2 := h w hw
  rw [List.countP_eq_zero] at h2
  exact h2 c hcw

theorem name_ne_of_nodup {s t : List TVar} {v : TVar}
    (hnd : (((s ++ v :: t).map TVar.name)).Nodup) :
    (∀ w ∈ s, w.name ≠ v.name) ∧ (∀ w ∈ t, w.name ≠ v.name) := by
  rw [List.map_append, List.map_cons, List.nodup_append] at hnd
  constructor
  · intro w hw heq
    exact hnd.2.2 (by rw [← heq]; exact List.mem_map_of_mem _ hw)
      (List.mem_cons_self _ _)
  · intro w hw heq
    have h2 := hnd.2.1
    rw [List.nodup_cons] at h2
    exact h2.1 (by rw [← heq]; exact List.mem_map_of_mem _ hw)

theorem countP_vbac_split {vars : List TVar} {v : TVar} {n : Nat}
    (hnd : (vars.map TVar.name).Nodup) (hv : v ∈ vars) {p : MCon → Bool}
    (hother : ∀ w : TVar, w.name ≠ v.name → (boundConsOf w).countP p = 0)
    (hself : (boundConsOf v).countP p = n) :
    (vars.flatMap boundConsOf).countP p = n := by
  obtain ⟨s, t, rfl⟩ := List.append_of_mem hv
  have hne := name_ne_of_nodup hnd
  rw [List.flatMap_append, List.flatMap_cons, List.countP_append, List.countP_append]
  rw [countP_flatMap_zero (fun w hw => hother w (hne.1 w hw)),
      countP_flatMap_zero (fun w hw => hother w (hne.2 w hw)), hself]
  omega

/-- C5: for every non-fixed variable with at least one finite bound the
transform synthesizes exactly one constraint per finite bound (the
`lb <= v` and/or `v <= ub` constraint, named `lb_for_`/`ub_for_` plus the
variable's fully qualified name, inside the `_variable_bounds` block), and
afterwards clears the variable's bounds and sets its domain to the
unrestricted reals; fixed variables are left untouched and no constraint is
synthesized for them. -/
theorem C5_bound_transform_per_var (vars : List TVar)
    (hnd : (vars.map TVar.name).Nodup) :
    (variableBoundsAsConstraints vars).1 = vars.map stripIfBounded ∧
    (∀ v : TVar, v.fixed = true → stripIfBounded v = v) ∧
    (∀ v : TVar, v.fixed = false → ¬(v.lb = none ∧ v.ub = none) →
      stripIfBounded v = { v with lb := none, ub := none, domain := "Reals" }) ∧
    (∀ v ∈ vars, v.fixed = true →
      (variableBoundsAsConstraints vars).2.countP (fun c => c.body == v.name) = 0) ∧
    (∀ v ∈ vars, v.fixed = false →
      (∀ l, v.lb = some l →
        (variableBoundsAsConstraints vars).2.countP
          (fun c => c.localName == "lb_for_" ++ v.name) = 1 ∧
        mkLbCon v.name l ∈ (variableBoundsAsConstraints vars).2) ∧
      (v.lb = none →
        (variableBoundsAsConstraints vars).2.countP
          (fun c => c.localName == "lb_for_" ++ v.name) = 0) ∧
      (∀ u, v.ub = some u →
        (variableBoundsAsConstraints vars).2.countP
          (fun c => c.localName == "ub_for_" ++ v.name) = 1 ∧
        mkUbCon v.name u ∈ (variableBoundsAsConstraints vars).2) ∧
      (v.ub = none →
        (variableBoundsAsConstraints vars).2.countP
          (fun c => c.localName == "ub_for_" ++ v.name) = 0)) := by
  refine ⟨vbac_fst vars, ?_, ?_, ?_, ?_⟩
  · intro v hf
    simp [stripIfBounded, hf]
  · intro v hf hb
    simp [stripIfBounded, stripVarBounds, hf, hb]
  · intro v hv hf
    rw [vbac_snd]
    exact countP_vbac_split hnd hv (fun w hw => countP_boundConsOf_body_ne hw)
      (countP_boundConsOf_fixed hf _)
  · intro v hv hf
    refine ⟨?_, ?_, ?_, ?_⟩
    · intro l hl
      constructor
      · rw [vbac_snd]
        exact countP_vbac_split hnd hv (fun w hw => countP_boundConsOf_lb_ne hw)
          (countP_boundConsOf_lb_self hf hl).1
      · rw [vbac_snd]
        exact List.mem_flatMap_of_mem hv (countP_boundConsOf_lb_self hf hl).2
    · intro hl
      rw [vbac_snd]
      exact countP_vbac_split hnd hv (fun w hw => countP_boundConsOf_lb_ne hw)
        (countP_boundConsOf_lb_none hl)
    · intro u hu
      constructor
      · rw [vbac_snd]
        exact countP_vbac_split hnd hv (fun w hw => countP_boundConsOf_ub_ne hw)
          (countP_boundConsOf_ub_self hf hu).1
      · rw [vbac_snd]
        exact List.mem_flatMap_of_mem hv (countP_boundConsOf_ub_self hf hu).2
    · intro hu
      rw [vbac_snd]
      exact countP_vbac_split hnd hv (fun w hw => countP_boundConsOf_ub_ne hw)
        (countP_boundConsOf_ub_none hu)

/-- C5 witness: on a model with one free variable bounded on both sides and
one fixed variable, the theorem yields exactly one lower-bound constraint
for the free variable and no constraint for the fixed variable. -/
theorem C5_bound_transform_per_var_witness :
    (variableBoundsAsConstraints
        [⟨"x", some 1, some 2, "Reals", false⟩, ⟨"y", some 0, none, "Reals", true⟩]).2.countP
      (fun c => c.localName == "lb_for_" ++ "x") = 1 ∧
    mkLbCon "x" 1 ∈ (variableBoundsAsConstraints
        [⟨"x", some 1, some 2, "Reals", false⟩, ⟨"y", some 0, none, "Reals", true⟩]).2 ∧
    (variableBoundsAsConstraints
        [⟨"x", some 1, some 2, "Reals", false⟩, ⟨"y", some 0, none, "Reals", true⟩]).2.countP
      (fun c => c.body == "y") = 0 :=
  ⟨((C5_bound_transform_per_var _ (by decide)).2.2.2.2
      ⟨"x", some 1, some 2, "Reals", false⟩ (by simp) rfl).1 1 rfl |>.1,
   ((C5_bound_transform_per_var _ (by decide)).2.2.2.2
      ⟨"x", some 1, some 2, "Reals", false⟩ (by simp) rfl).1 1 rfl |>.2,
   (C5_bound_transform_per_var _ (by decide)).2.2.2.1
      ⟨"y", some 0, none, "Reals", true⟩ (by simp) rfl⟩

/-- C8: applying the transform to a model in which no free variable has any
finite bound yields no synthesized constraints and leaves every variable's
bounds and domain unmodified. -/
theorem C8_transform_no_bounds_noop (vars : List TVar)
    (h : ∀ v ∈ vars, v.fixed = false → v.lb = none ∧ v.ub = none) :
    variableBoundsAsConstraints vars = (vars, []) := by
  induction vars with
  | nil => rfl
  | cons v rest ih =>
    have hrest := ih (fun w hw => h w (List.mem_cons_of_mem _ hw))
    cases hf : v.fixed with
    | true => simp [variableBoundsAsConstraints, hf, hrest]
    | false =>
      have hb := h v (List.mem_cons_self _ _) hf
      simp [variableBoundsAsConstraints, hf, hb.1, hb.2, hrest]

/-- C8 witness: a free unbounded variable and a fixed bounded variable pass
through the transform untouched, with no constraints synthesized. -/
theorem C8_transform_no_bounds_noop_witness :
    variableBoundsAsConstraints
        [⟨"x", none, none, "Reals", false⟩, ⟨"y", some 1, some 2, "Reals", true⟩] =
      ([⟨"x", none, none, "Reals", false⟩, ⟨"y", some 1, some 2, "Reals", true⟩], []) :=
  C8_transform_no_bounds_noop _ (by decide)

/-- C10: every constraint synthesized by the transform has a local name
beginning with `lb_for_` or `ub_for_`, so the `RuntimeError("unrecongized
var name")` branch of the reporting helpers is unreachable on it. -/
theorem C10_bound_names_render_safe (vars : List TVar) (c : MCon)
    (hc : c ∈ (variableBoundsAsConstraints vars).2) (q : ℚ) :
    (strStarts c.localName "lb_for_" = true ∨ strStarts c.localName "ub_for_" = true) ∧
    (renderPlain c.name c.localName).isOk = true ∧
    (renderWithValue c.name c.localName q).isOk = true := by
  rw [vbac_snd] at hc
  rw [List.mem_flatMap] at hc
  obtain ⟨w, _, hcw⟩ := hc
  rcases mem_boundConsOf hcw with ⟨l, _, rfl⟩ | ⟨u, _, rfl⟩
  · refine ⟨Or.inl (strStarts_append "lb_for_" w.name), ?_, ?_⟩
    · simp [renderPlain, mkLbCon, strContains_blockdot_vb, strContains_lbfor_lb,
            Except.isOk, Except.toBool]
    · simp [renderWithValue, mkLbCon, strContains_blockdot_vb, strContains_lbfor_lb,
            Except.isOk, Except.toBool]
  · refine ⟨Or.inr (strStarts_append "ub_for_" w.name), ?_, ?_⟩
    · cases hlb : strContains ("ub_for_" ++ w.name) "lb" with
      | true => simp [renderPlain, mkUbCon, strContains_blockdot_vb, hlb,
                      Except.isOk, Except.toBool]
      | false =>
        simp [renderPlain, mkUbCon, strContains_blockdot_vb, hlb, strContains_ubfor_ub,
              Except.isOk, Except.toBool]
    · cases hlb : strContains ("ub_for_" ++ w.name) "lb" with
      | true => simp [renderWithValue, mkUbCon, strContains_blockdot_vb, hlb,
                      Except.isOk, Except.toBool]
      | false =>
        simp [renderWithValue, mkUbCon, strContains_blockdot_vb, hlb, strContains_ubfor_ub,
              Except.isOk, Except.toBool]

/-- C10 witness: the upper-bound constraint synthesized for variable `z`
starts with `ub_for_` and renders without error. -/
theorem C10_bound_names_render_safe_witness :
    (strStarts (mkUbCon "z" 2).localName "lb_for_" = true ∨
      strStarts (mkUbCon "z" 2).localName "ub_for_" = true) ∧
    (renderPlain (mkUbCon "z" 2).name (mkUbCon "z" 2).localName).isOk = true ∧
    (renderWithValue (mkUbCon "z" 2).name (mkUbCon "z" 2).localName 3).isOk = true :=
  C10_bound_names_render_safe [⟨"z", none, some 2, "Reals", false⟩] (mkUbCon "z" 2)
    (by decide) 3

/-- C9 counterexample: the transform's upper-bound constraint for the
variable named `flb` (a name containing the substring `lb`) is rendered by
the reporting layer as the LOWER bound of `flb`, not the upper bound; and an
ordinary constraint whose fully qualified name happens to contain
`_variable_bounds` and whose local name contains neither `lb` nor `ub` is
not rendered by its constraint name but hits the RuntimeError branch. -/
theorem C9_reporting_counterexample :
    mkUbCon "flb" 1 ∈
      (variableBoundsAsConstraints [⟨"flb", some 0, some 1, "Reals", false⟩]).2 ∧
    (mkUbCon "flb" 1).hi = some 1 ∧ (mkUbCon "flb" 1).lo = none ∧
    renderPlain (mkUbCon "flb" 1).name (mkUbCon "flb" 1).localName =
      Except.ok "\tlb of var flb\n" ∧
    renderPlain "blk_variable_boundsq.c7" "c7" =
      Except.error "unrecongized var name" :=
  ⟨by decide, rfl, rfl, rfl, rfl⟩

/-- C9 (amended): a synthesized lower-bound constraint of variable X is
always rendered as the lower bound of X; a synthesized upper-bound
constraint of X is rendered as the upper bound of X provided X does not
contain the substring `lb`, and is misrendered as the lower bound of X when
it does (the variable name shown is still X); a constraint whose fully
qualified name does not contain `_variable_bounds` is rendered by its
constraint name; and a constraint whose fully qualified name does contain
`_variable_bounds` is dispatched on its local name — `lb` inside the local
name renders a lower bound of the local name with its first seven characters
dropped, otherwise `ub` inside renders an upper bound likewise, and only a
local name containing neither substring hits the RuntimeError branch. -/
theorem C9_render_amended (x : String) (l u q : ℚ) (cn cl vn ln : String)
    (hord : strContains cn "_variable_bounds" = false)
    (hvb : strContains vn "_variable_bounds" = true) :
    renderPlain (mkLbCon x l).name (mkLbCon x l).localName =
      Except.ok ("\tlb of var " ++ x ++ "\n") ∧
    renderWithValue (mkLbCon x l).name (mkLbCon x l).localName q =
      Except.ok ("\tlb of var " ++ x ++ " by " ++ toString q ++ "\n") ∧
    (strContains x "lb" = false →
      renderPlain (mkUbCon x u).name (mkUbCon x u).localName =
        Except.ok ("\tub of var " ++ x ++ "\n") ∧
      renderWithValue (mkUbCon x u).name (mkUbCon x u).localName q =
        Except.ok ("\tub of var " ++ x ++ " by " ++ toString q ++ "\n")) ∧
    (strContains x "lb" = true →
      renderPlain (mkUbCon x u).name (mkUbCon x u).localName =
        Except.ok ("\tlb of var " ++ x ++ "\n")) ∧
    renderPlain cn cl = Except.ok ("\tconstraint: " ++ cn ++ "\n") ∧
    renderWithValue cn cl q =
      Except.ok ("\tconstraint: " ++ cn ++ " by " ++ toString q ++ "\n") ∧
    (strContains ln "lb" = true →
      renderPlain vn ln = Except.ok ("\tlb of var " ++ strDropN 7 ln ++ "\n") ∧
      renderWithValue vn ln q =
        Except.ok ("\tlb of var " ++ strDropN 7 ln ++ " by " ++ toString q ++ "\n")) ∧
    (strContains ln "lb" = false → strContains ln "ub" = true →
      renderPlain vn ln = Except.ok ("\tub of var " ++ strDropN 7 ln ++ "\n") ∧
      renderWithValue vn ln q =
        Except.ok ("\tub of var " ++ strDropN 7 ln ++ " by " ++ toString q ++ "\n")) ∧
    (strContains ln "lb" = false → strContains ln "ub" = false →
      renderPlain vn ln = Except.error "unrecongized var name" ∧
      renderWithValue vn ln q = Except.error "unrecongized var name") := by
  refine ⟨?_, ?_, ?_, ?_, ?_, ?_, ?_, ?_, ?_⟩
  · simp [renderPlain, mkLbCon, strContains_blockdot_vb, strContains_lbfor_lb,
          strDropN7_lbfor]
  · simp [renderWithValue, mkLbCon, strContains_blockdot_vb, strContains_lbfor_lb,
          strDropN7_lbfor]
  · intro hx
    have hlb : strContains ("ub_for_" ++ x) "lb" = false := by
      rw [strContains_ubfor_lb, hx]
    constructor
    · simp [renderPlain, mkUbCon, strContains_blockdot_vb, hlb, strContains_ubfor_ub,
            strDropN7_ubfor]
    · simp [renderWithValue, mkUbCon, strContains_blockdot_vb, hlb, strContains_ubfor_ub,
            strDropN7_ubfor]
  · intro hx
    have hlb : strContains ("ub_for_" ++ x) "lb" = true := by
      rw [strContains_ubfor_lb, hx]
    simp [renderPlain, mkUbCon, strContains_blockdot_vb, hlb, strDropN7_ubfor]
  · simp [renderPlain, hord]
  · simp [renderWithValue, hord]
  · intro hlb
    exact ⟨by simp [renderPlain, hvb, hlb], by simp [renderWithValue, hvb, hlb]⟩
  · intro hlb hub
    exact ⟨by simp [renderPlain, hvb, hlb, hub], by simp [renderWithValue, hvb, hlb, hub]⟩
  · intro hlb hub
    exact ⟨by simp [renderPlain, hvb, hlb, hub], by simp [renderWithValue, hvb, hlb, hub]⟩

/-- C9 witness: the amended rendering facts at variable `a`, variable `xlb`,
the ordinary constraint `c1`, and the bound-block-named constraint
`blk_variable_boundsq.c7` with local names `fallback` (contains `lb`, so it
renders as the lower bound of the mangled name `k`) and `c7` (contains
neither substring, so it hits the RuntimeError branch). -/
theorem C9_render_amended_witness :
    renderPlain (mkLbCon "a" 1).name (mkLbCon "a" 1).localName =
      Except.ok "\tlb of var a\n" ∧
    renderPlain (mkUbCon "a" 2).name (mkUbCon "a" 2).localName =
      Except.ok "\tub of var a\n" ∧
    renderPlain (mkUbCon "xlb" 2).name (mkUbCon "xlb" 2).localName =
      Except.ok "\tlb of var xlb\n" ∧
    renderPlain "c1" "c1" = Except.ok "\tconstraint: c1\n" ∧
    renderPlain "blk_variable_boundsq.c7" "fallback" =
      Except.ok ("\tlb of var " ++ strDropN 7 "fallback" ++ "\n") ∧
    renderPlain "blk_variable_boundsq.c7" "c7" =
      Except.error "unrecongized var name" :=
  ⟨(C9_render_amended "a" 1 2 3 "c1" "c1" "blk_variable_boundsq.c7" "fallback"
      (by decide) (by decide)).1,
   ((C9_render_amended "a" 1 2 3 "c1" "c1" "blk_variable_boundsq.c7" "fallback"
      (by decide) (by decide)).2.2.1 (by decide)).1,
   (C9_render_amended "xlb" 1 2 3 "c1" "c1" "blk_variable_boundsq.c7" "fallback"
      (by decide) (by decide)).2.2.2.1 (by decide),
   (C9_render_amended "a" 1 2 3 "c1" "c1" "blk_variable_boundsq.c7" "fallback"
      (by decide) (by decide)).2.2.2.2.1,
   ((C9_render_amended "a" 1 2 3 "c1" "c1" "blk_variable_boundsq.c7" "fallback"
      (by decide) (by decide)).2.2.2.2.2.2.1 (by decide)).1,
   ((C9_render_amended "a" 1 2 3 "c1" "c1" "blk_variable_boundsq.c7" "c7"
      (by decide) (by decide)).2.2.2.2.2.2.2.2 (by decide) (by decide)).1⟩

/-! ### The relaxation scan (`_constraint_generator`) -/

theorem mem_insertRef_of_mem {c r : ConRef} {l : List ConRef} (h : r ∈ l) :
    r ∈ insertRef c l := by
  by_cases hc : c ∈ l <;> simp [insertRef, hc, h]

theorem mem_insertRef_self (c : ConRef) (l : List ConRef) : c ∈ insertRef c l := by
  by_cases hc : c ∈ l <;> simp [insertRef, hc]

theorem mem_insertRef_elim {c r : ConRef} {l : List ConRef} (h : r ∈ insertRef c l) :
    r ∈ l ∨ r = c := by
  by_cases hc : c ∈ l
  · rw [insertRef, if_pos hc] at h
    exact Or.inl h
  · rw [insertRef, if_neg hc] at h
    rcases List.mem_append.mp h with h2 | h2
    · exact Or.inl h2
    · exact Or.inr (List.mem_singleton.mp h2)

theorem mem_insertStr_of_mem {c r : String} {l : List String} (h : r ∈ l) :
    r ∈ insertStr c l := by
  by_cases hc : c ∈ l <;> simp [insertStr, hc, h]

theorem mem_insertStr_self (c : String) (l : List String) : c ∈ insertStr c l := by
  by_cases hc : c ∈ l <;> simp [insertStr, hc]

theorem mem_insertStr_elim {c r : String} {l : List String} (h : r ∈ insertStr c l) :
    r ∈ l ∨ r = c := by
  by_cases hc : c ∈ l
  · rw [insertStr, if_pos hc] at h
    exact Or.inl h
  · rw [insertStr, if_neg hc] at h
    rcases List.mem_append.mp h with h2 | h2
    · exact Or.inl h2
    · exact Or.inr (List.mem_singleton.mp h2)

theorem cg_filter_mono {tol : ℚ} {cons : List MCon} {slacks : List Slack}
    {filter : List ConRef} {fixedS : List String} {msg : String} {r : ConRef}
    (hr : r ∈ filter) :
    r ∈ (constraint_generator tol cons slacks filter fixedS msg).filter := by
  induction slacks generalizing filter fixedS msg with
  | nil => exact hr
  | cons s rest ih =>
    by_cases hv : tol < s.value
    · cases hfc : findCon cons s.owner with
      | none => simp only [constraint_generator, hv, hfc, if_true]; exact hr
      | some c =>
        cases hrw : renderWithValue c.name c.localName s.value with
        | error e =>
          simp only [constraint_generator, hv, hfc, hrw, if_true]
          exact hr
        | ok line =>
          simp only [constraint_generator, hv, hfc, hrw, if_true]
          exact ih (mem_insertRef_of_mem hr)
    · simp only [constraint_generator, hv, if_false]
      exact ih hr

theorem cg_fixedS_mono {tol : ℚ} {cons : List MCon} {slacks : List Slack}
    {filter : List ConRef} {fixedS : List String} {msg : String} {r : String}
    (hr : r ∈ fixedS) :
    r ∈ (constraint_generator tol cons slacks filter fixedS msg).fixedSlacks := by
  induction slacks generalizing filter fixedS msg with
  | nil => exact hr
  | cons s rest ih =>
    by_cases hv : tol < s.value
    · cases hfc : findCon cons s.owner with
      | none => simp only [constraint_generator, hv, hfc, if_true]; exact hr
      | some c =>
        cases hrw : renderWithValue c.name c.localName s.value with
        | error e =>
          simp only [constraint_generator, hv, hfc, hrw, if_true]
          exact hr
        | ok line =>
          simp only [constraint_generator, hv, hfc, hrw, if_true]
          exact ih (mem_insertStr_of_mem hr)
    · simp only [constraint_generator, hv, if_false]
      exact ih hr

/-- C6: in one scan of the relaxation loop a slack is recorded (owning
constraint yielded with the relaxation amount and inserted into the elastic
filter, slack re-fixed at zero and added to `fixed_slacks`) exactly when its
value is strictly greater than the tolerance; every other slack, including
one whose value equals the tolerance, is left untouched and contributes
nothing to the filter or to `fixed_slacks`. -/
theorem C6_scan_strict_threshold (tol : ℚ) (cons : List MCon) (slacks : List Slack)
    (filter : List ConRef) (fixedS : List String) (msg : String)
    (herr : (constraint_generator tol cons slacks filter fixedS msg).err = false) :
    (constraint_generator tol cons slacks filter fixedS msg).slacks =
      slacks.map (fun s => if tol < s.value then fixZero s else s) ∧
    (constraint_generator tol cons slacks filter fixedS msg).records =
      specRecorded tol cons slacks ∧
    (∀ s ∈ slacks, tol < s.value → ∀ c, findCon cons s.owner = some c →
      c.ref ∈ (constraint_generator tol cons slacks filter fixedS msg).filter ∧
      slackName s ∈ (constraint_generator tol cons slacks filter fixedS msg).fixedSlacks) ∧
    (∀ r ∈ (constraint_generator tol cons slacks filter fixedS msg).filter,
      r ∈ filter ∨ ∃ s ∈ slacks, tol < s.value ∧
        ∃ c, findCon cons s.owner = some c ∧ r = c.ref) ∧
    (∀ n ∈ (constraint_generator tol cons slacks filter fixedS msg).fixedSlacks,
      n ∈ fixedS ∨ ∃ s ∈ slacks, tol < s.value ∧ n = slackName s) := by
  induction slacks generalizing filter fixedS msg with
  | nil =>
    refine ⟨rfl, rfl, by simp, ?_, ?_⟩
    · intro r hr; exact Or.inl hr
    · intro n hn; exact Or.inl hn
  | cons s rest ih =>
    by_cases hv : tol < s.value
    · cases hfc : findCon cons s.owner with
      | none =>
        exfalso
        simp only [constraint_generator, hv, hfc, if_true] at herr
        exact Bool.noConfusion herr
      | some c =>
        cases hrw : renderWithValue c.name c.localName s.value with
        | error e =>
          exfalso
          simp only [constraint_generator, hv, hfc, hrw, if_true] at herr
          exact Bool.noConfusion herr
        | ok line =>
          have herr2 : (constraint_generator tol cons rest (insertRef c.ref filter)
              (insertStr (slackName s) fixedS) (msg ++ line)).err = false := by
            simp only [constraint_generator, hv, hfc, hrw, if_true] at herr
            exact herr
          obtain ⟨iha, ihb, ihc, ihd, ihe⟩ := ih _ _ _ herr2
          refine ⟨?_, ?_, ?_, ?_, ?_⟩
          · simp only [constraint_generator, hv, hfc, hrw, if_true, List.map_cons]
            rw [iha]
            simp [fixZero, hv]
          · simp only [constraint_generator, hv, hfc, hrw, if_true, specRecorded]
            rw [ihb]
            simp [hv, hfc]
          · intro s2 hs2 hv2 c2 hc2
            rcases List.mem_cons.mp hs2 with rfl | hs2r
            · rw [hfc] at hc2
              have hcc := Option.some.inj hc2
              subst hcc
              constructor
              · simp only [constraint_generator, hv, hfc, hrw, if_true]
                exact cg_filter_mono (mem_insertRef_self _ _)
              · simp only [constraint_generator, hv, hfc, hrw, if_true]
                exact cg_fixedS_mono (mem_insertStr_self _ _)
            · have h2 := ihc s2 hs2r hv2 c2 hc2
              constructor
              · simp only [constraint_generator, hv, hfc, hrw, if_true]
                exact h2.1
              · simp only [constraint_generator, hv, hfc, hrw, if_true]
                exact h2.2
          · intro r hr
            simp only [constraint_generator, hv, hfc, hrw, if_true] at hr
            rcases ihd r hr with hr2 | ⟨s2, hs2, hv2, c2, hc2, rfl⟩
            · rcases mem_insertRef_elim hr2 with hr3 | rfl
              · exact Or.inl hr3
              · exact Or.inr ⟨s, List.mem_cons_self _ _, hv, c, hfc, rfl⟩
            · exact Or.inr ⟨s2, List.mem_cons_of_mem _ hs2, hv2, c2, hc2, rfl⟩
          · intro n hn
            simp only [constraint_generator, hv, hfc, hrw, if_true] at hn
            rcases ihe n hn with hn2 | ⟨s2, hs2, hv2, rfl⟩
            · rcases mem_insertStr_elim hn2 with hn3 | rfl
              · exact Or.inl hn3
              · exact Or.inr ⟨s, List.mem_cons_self _ _, hv, rfl⟩
            · exact Or.inr ⟨s2, List.mem_cons_of_mem _ hs2, hv2, rfl⟩
    · have herr2 : (constraint_generator tol cons rest filter fixedS msg).err = false := by
        simp only [constraint_generator, hv, if_false] at herr
        exact herr
      obtain ⟨iha, ihb, ihc, ihd, ihe⟩ := ih _ _ _ herr2
      refine ⟨?_, ?_, ?_, ?_, ?_⟩
      · simp only [constraint_generator, hv, if_false, List.map_cons]
        rw [iha]
      · simp only [constraint_generator, hv, if_false, specRecorded]
        rw [ihb]
        simp [hv]
      · intro s2 hs2 hv2 c2 hc2
        rcases List.mem_cons.mp hs2 with rfl | hs2r
        · exact absurd hv2 hv
        · have h2 := ihc s2 hs2r hv2 c2 hc2
          constructor
          · simp only [constraint_generator, hv, if_false]
            exact h2.1
          · simp only [constraint_generator, hv, if_false]
            exact h2.2
      · intro r hr
        simp only [constraint_generator, hv, if_false] at hr
        rcases ihd r hr with hr2 | ⟨s2, hs2, hv2, c2, hc2, rfl⟩
        · exact Or.inl hr2
        · exact Or.inr ⟨s2, List.mem_cons_of_mem _ hs2, hv2, c2, hc2, rfl⟩
      · intro n hn
        simp only [constraint_generator, hv, if_false] at hn
        rcases ihe n hn with hn2 | ⟨s2, hs2, hv2, rfl⟩
        · exact Or.inl hn2
        · exact Or.inr ⟨s2, List.mem_cons_of_mem _ hs2, hv2, rfl⟩

/-- C6 witness: scanning two slacks of the ordinary constraint `c1` at
tolerance 1 — one slack at value 5, one exactly at the tolerance — records
and fixes only the violating slack and leaves the at-tolerance slack
untouched. -/
theorem C6_scan_strict_threshold_witness :
    (constraint_generator 1 [⟨"c1", "c1", none, "x", some 3, false, false, true⟩]
        [⟨"c1", true, 5, false⟩, ⟨"c1", false, 1, false⟩] [] [] "").slacks =
      [⟨"c1", true, 5, false⟩, ⟨"c1", false, 1, false⟩].map
        (fun s => if 1 < s.value then fixZero s else s) ∧
    (constraint_generator 1 [⟨"c1", "c1", none, "x", some 3, false, false, true⟩]
        [⟨"c1", true, 5, false⟩, ⟨"c1", false, 1, false⟩] [] [] "").records =
      specRecorded 1 [⟨"c1", "c1", none, "x", some 3, false, false, true⟩]
        [⟨"c1", true, 5, false⟩, ⟨"c1", false, 1, false⟩] ∧
    (⟨"c1", "c1"⟩ : ConRef) ∈
      (constraint_generator 1 [⟨"c1", "c1", none, "x", some 3, false, false, true⟩]
        [⟨"c1", true, 5, false⟩, ⟨"c1", false, 1, false⟩] [] [] "").filter :=
  ⟨(C6_scan_strict_threshold 1 _ _ [] [] "" (by decide)).1,
   (C6_scan_strict_threshold 1 _ _ [] [] "" (by decide)).2.1,
   ((C6_scan_strict_threshold 1 _ _ [] [] "" (by decide)).2.2.1
      ⟨"c1", true, 5, false⟩ (by decide) (by decide)
      ⟨"c1", "c1", none, "x", some 3, false, false, true⟩ (by decide)).1⟩

/-! ### The deletion sweep -/

theorem findCon_cons_pos (c : MCon) (rest : List MCon) (n : String) (h : c.name = n) :
    findCon (c :: rest) n = some c := by
  rw [findCon, List.find?_cons, show (c.name == n) = true by simp [h]]

theorem findCon_cons_neg (c : MCon) (rest : List MCon) (n : String) (h : ¬c.name = n) :
    findCon (c :: rest) n = findCon rest n := by
  rw [findCon, List.find?_cons, show (c.name == n) = false by simp [h]]
  rfl

theorem setConActive_cons (c : MCon) (rest : List MCon) (m : String) (b : Bool) :
    setConActive (c :: rest) m b =
      (if c.name = m then { c with active := b } else c) :: setConActive rest m b := by
  by_cases h : c.name = m <;> simp [setConActive, h]

theorem findCon_setConActive_other {cons : List MCon} {m n : String} {b : Bool}
    (h : ¬m = n) :
    findCon (setConActive cons m b) n = findCon cons n := by
  induction cons with
  | nil => rfl
  | cons c rest ih =>
    rw [setConActive_cons]
    by_cases hc : c.name = m
    · rw [if_pos hc]
      have hn : ¬c.name = n := by rw [hc]; exact h
      rw [findCon_cons_neg { c with active := b } _ n hn, findCon_cons_neg c rest n hn, ih]
    · rw [if_neg hc]
      by_cases hn : c.name = n
      · rw [findCon_cons_pos c _ n hn, findCon_cons_pos c rest n hn]
      · rw [findCon_cons_neg c _ n hn, findCon_cons_neg c rest n hn, ih]

theorem findCon_setConActive_self {cons : List MCon} {n : String} {b : Bool} {c : MCon}
    (h : findCon cons n = some c) :
    findCon (setConActive cons n b) n = some { c with active := b } := by
  induction cons with
  | nil => exact absurd h (by rw [findCon]; simp)
  | cons d rest ih =>
    rw [setConActive_cons]
    by_cases hd : d.name = n
    · rw [findCon_cons_pos d rest n hd] at h
      have hdc := Option.some.inj h
      subst hdc
      rw [if_pos hd]
      exact findCon_cons_pos { d with active := b } _ n hd
    · rw [findCon_cons_neg d rest n hd] at h
      rw [if_neg hd, findCon_cons_neg d _ n hd]
      exact ih h

theorem conActive_setConActive_self {cons : List MCon} {n : String} {b : Bool}
    (h : (findCon cons n).isSome = true) :
    conActive (setConActive cons n b) n = b := by
  cases hf : findCon cons n with
  | none => rw [hf] at h; exact Bool.noConfusion h
  | some c =>
    unfold conActive
    rw [findCon_setConActive_self hf]

theorem isSome_findCon_setConActive {cons : List MCon} {m n : String} {b : Bool} :
    (findCon (setConActive cons m b) n).isSome = (findCon cons n).isSome := by
  induction cons with
  | nil => rfl
  | cons c rest ih =>
    rw [setConActive_cons]
    by_cases hc : c.name = m
    · rw [if_pos hc]
      by_cases hn : c.name = n
      · rw [findCon_cons_pos { c with active := b } _ n hn, findCon_cons_pos c rest n hn]
        rfl
      · rw [findCon_cons_neg { c with active := b } _ n hn, findCon_cons_neg c rest n hn, ih]
    · rw [if_neg hc]
      by_cases hn : c.name = n
      · rw [findCon_cons_pos c _ n hn, findCon_cons_pos c rest n hn]
      · rw [findCon_cons_neg c _ n hn, findCon_cons_neg c rest n hn, ih]

theorem deletion_sweep_origVals (ctx : Ctx) (members : List ConRef) :
    ∀ st : DState, (deletion_sweep ctx members st).origVals = st.origVals := by
  induction members with
  | nil => intro st; rfl
  | cons c rest ih =>
    intro st
    cases ho : (ctx.oracle st.solveCount).outcome with
    | failure => simp only [deletion_sweep, solveModified, ho, ih]
    | optimal => simp only [deletion_sweep, solveModified, ho, ih]
    | nonOptimal => simp only [deletion_sweep, solveModified, ho, ih]

theorem deletion_sweep_writeBackCount (ctx : Ctx) (members : List ConRef) :
    ∀ st : DState, (deletion_sweep ctx members st).writeBackCount = st.writeBackCount := by
  induction members with
  | nil => intro st; rfl
  | cons c rest ih =>
    intro st
    cases ho : (ctx.oracle st.solveCount).outcome with
    | failure => simp only [deletion_sweep, solveModified, ho, ih]
    | optimal => simp only [deletion_sweep, solveModified, ho, ih]
    | nonOptimal => simp only [deletion_sweep, solveModified, ho, ih]

theorem deletion_sweep_writer (ctx : Ctx) (members : List ConRef) :
    ∀ st : DState, (deletion_sweep ctx members st).writer = st.writer := by
  induction members with
  | nil => intro st; rfl
  | cons c rest ih =>
    intro st
    cases ho : (ctx.oracle st.solveCount).outcome with
    | failure => simp only [deletion_sweep, solveModified, ho, ih]
    | optimal => simp only [deletion_sweep, solveModified, ho, ih]
    | nonOptimal => simp only [deletion_sweep, solveModified, ho, ih]

theorem deletion_sweep_filter (ctx : Ctx) (members : List ConRef) :
    ∀ st : DState, (deletion_sweep ctx members st).filter = st.filter := by
  induction members with
  | nil => intro st; rfl
  | cons c rest ih =>
    intro st
    cases ho : (ctx.oracle st.solveCount).outcome with
    | failure => simp only [deletion_sweep, solveModified, ho, ih]
    | optimal => simp only [deletion_sweep, solveModified, ho, ih]
    | nonOptimal => simp only [deletion_sweep, solveModified, ho, ih]

theorem deletion_sweep_solveCount (ctx : Ctx) (members : List ConRef) :
    ∀ st : DState, (deletion_sweep ctx members st).solveCount
      = st.solveCount + members.length := by
  induction members with
  | nil => intro st; simp [deletion_sweep]
  | cons c rest ih =>
    intro st
    cases ho : (ctx.oracle st.solveCount).outcome with
    | failure =>
      simp only [deletion_sweep, solveModified, ho, ih, List.length_cons]
      omega
    | optimal =>
      simp only [deletion_sweep, solveModified, ho, ih, List.length_cons]
      omega
    | nonOptimal =>
      simp only [deletion_sweep, solveModified, ho, ih, List.length_cons]
      omega

theorem deletion_sweep_sweepTests (ctx : Ctx) (members : List ConRef) :
    ∀ st : DState, (deletion_sweep ctx members st).sweepTests
      = st.sweepTests + members.length := by
  induction members with
  | nil => intro st; simp [deletion_sweep]
  | cons c rest ih =>
    intro st
    cases ho : (ctx.oracle st.solveCount).outcome with
    | failure =>
      simp only [deletion_sweep, solveModified, ho, ih, List.length_cons]
      omega
    | optimal =>
      simp only [deletion_sweep, solveModified, ho, ih, List.length_cons]
      omega
    | nonOptimal =>
      simp only [deletion_sweep, solveModified, ho, ih, List.length_cons]
      omega

theorem deletion_sweep_guards (ctx : Ctx) (members : List ConRef) :
    ∀ st : DState, (deletion_sweep ctx members st).guards =
      st.guards ++ classifyAt ctx.oracle st.solveCount members SolveOutcome.failure := by
  induction members with
  | nil => intro st; simp [deletion_sweep, classifyAt]
  | cons c rest ih =>
    intro st
    cases ho : (ctx.oracle st.solveCount).outcome with
    | failure =>
      simp only [deletion_sweep, solveModified, ho, ih, classifyAt]
      simp [ho]
    | optimal =>
      simp only [deletion_sweep, solveModified, ho, ih, classifyAt]
      simp [ho]
    | nonOptimal =>
      simp only [deletion_sweep, solveModified, ho, ih, classifyAt]
      simp [ho]

theorem deletion_sweep_misList (ctx : Ctx) (members : List ConRef) :
    ∀ st : DState, (deletion_sweep ctx members st).misList =
      st.misList ++ classifyAt ctx.oracle st.solveCount members SolveOutcome.optimal := by
  induction members with
  | nil => intro st; simp [deletion_sweep, classifyAt]
  | cons c rest ih =>
    intro st
    cases ho : (ctx.oracle st.solveCount).outcome with
    | failure =>
      simp only [deletion_sweep, solveModified, ho, ih, classifyAt]
      simp [ho]
    | optimal =>
      simp only [deletion_sweep, solveModified, ho, ih, classifyAt]
      simp [ho]
    | nonOptimal =>
      simp only [deletion_sweep, solveModified, ho, ih, classifyAt]
      simp [ho]

theorem conActive_setConActive_other {cons : List MCon} {m n : String} {b : Bool}
    (h : ¬m = n) :
    conActive (setConActive cons m b) n = conActive cons n := by
  unfold conActive
  rw [findCon_setConActive_other h]

theorem deletion_sweep_findCon_isSome (ctx : Ctx) (n : String) :
    ∀ (members : List ConRef) (st : DState),
      (findCon (deletion_sweep ctx members st).cons n).isSome
        = (findCon st.cons n).isSome := by
  intro members
  induction members with
  | nil => intro st; rfl
  | cons c rest ih =>
    intro st
    cases ho : (ctx.oracle st.solveCount).outcome with
    | failure =>
      simp only [deletion_sweep, solveModified, ho, ih, isSome_findCon_setConActive]
    | optimal =>
      simp only [deletion_sweep, solveModified, ho, ih, isSome_findCon_setConActive]
    | nonOptimal =>
      simp only [deletion_sweep, solveModified, ho, ih, isSome_findCon_setConActive]

theorem deletion_sweep_conActive_frame (ctx : Ctx) (n : String) :
    ∀ (members : List ConRef), ¬n ∈ members.map ConRef.name →
    ∀ st : DState,
      conActive (deletion_sweep ctx members st).cons n = conActive st.cons n := by
  intro members
  induction members with
  | nil => intro _ st; rfl
  | cons c rest ih =>
    intro hn st
    have hcn : ¬c.name = n := by
      intro h
      exact hn (by rw [List.map_cons]; exact h ▸ List.mem_cons_self _ _)
    have hrest : ¬n ∈ rest.map ConRef.name := by
      intro h2
      exact hn (by rw [List.map_cons]; exact List.mem_cons_of_mem _ h2)
    cases ho : (ctx.oracle st.solveCount).outcome with
    | failure =>
      simp only [deletion_sweep, solveModified, ho, ih hrest]
      rw [conActive_setConActive_other hcn, conActive_setConActive_other hcn]
    | optimal =>
      simp only [deletion_sweep, solveModified, ho, ih hrest]
      rw [conActive_setConActive_other hcn, conActive_setConActive_other hcn]
    | nonOptimal =>
      simp only [deletion_sweep, solveModified, ho, ih hrest]
      rw [conActive_setConActive_other hcn]

theorem deletion_sweep_conActive_get (ctx : Ctx) :
    ∀ (members : List ConRef), (members.map ConRef.name).Nodup →
    ∀ (st : DState) (i : Nat) (hi : i < members.length),
      (findCon st.cons ((members.get ⟨i, hi⟩).name)).isSome = true →
      conActive (deletion_sweep ctx members st).cons ((members.get ⟨i, hi⟩).name) =
        (if (ctx.oracle (st.solveCount + i)).outcome = SolveOutcome.nonOptimal
          then false else true) := by
  intro members
  induction members with
  | nil =>
    intro _ st i hi
    exact absurd hi (by simp)
  | cons c rest ih =>
    intro hnd st i hi hsome
    have hhead : ¬c.name ∈ rest.map ConRef.name := by
      rw [List.map_cons, List.nodup_cons] at hnd
      exact hnd.1
    have hndr : (rest.map ConRef.name).Nodup := by
      rw [List.map_cons, List.nodup_cons] at hnd
      exact hnd.2
    cases i with
    | zero =>
      have hsome0 : (findCon st.cons c.name).isSome = true := hsome
      cases ho : (ctx.oracle st.solveCount).outcome with
      | failure =>
        show conActive (deletion_sweep ctx (c :: rest) st).cons c.name = _
        simp only [deletion_sweep, solveModified, ho]
        rw [deletion_sweep_conActive_frame ctx c.name rest hhead]
        rw [conActive_setConActive_self (by
          rw [isSome_findCon_setConActive]
          exact hsome0)]
        simp [ho]
      | optimal =>
        show conActive (deletion_sweep ctx (c :: rest) st).cons c.name = _
        simp only [deletion_sweep, solveModified, ho]
        rw [deletion_sweep_conActive_frame ctx c.name rest hhead]
        rw [conActive_setConActive_self (by
          rw [isSome_findCon_setConActive]
          exact hsome0)]
        simp [ho]
      | nonOptimal =>
        show conActive (deletion_sweep ctx (c :: rest) st).cons c.name = _
        simp only [deletion_sweep, solveModified, ho]
        rw [deletion_sweep_conActive_frame ctx c.name rest hhead]
        rw [conActive_setConActive_self hsome0]
        simp [ho]
    | succ j =>
      have hj : j < rest.length := by
        have h3 := hi
        simp only [List.length_cons] at h3
        omega
      have hget : (c :: rest).get ⟨j + 1, hi⟩ = rest.get ⟨j, hj⟩ := rfl
      rw [hget] at hsome ⊢
      have harith : st.solveCount + 1 + j = st.solveCount + (j + 1) := by omega
      cases ho : (ctx.oracle st.solveCount).outcome with
      | failure =>
        simp only [deletion_sweep, solveModified, ho]
        rw [ih hndr _ j hj (by
          rw [isSome_findCon_setConActive, isSome_findCon_setConActive]
          exact hsome)]
        rw [harith]
      | optimal =>
        simp only [deletion_sweep, solveModified, ho]
        rw [ih hndr _ j hj (by
          rw [isSome_findCon_setConActive, isSome_findCon_setConActive]
          exact hsome)]
        rw [harith]
      | nonOptimal =>
        simp only [deletion_sweep, solveModified, ho]
        rw [ih hndr _ j hj (by
          rw [isSome_findCon_setConActive]
          exact hsome)]
        rw [harith]

theorem classifyAt_subset {oracle : Nat → SolveResult} {o : SolveOutcome} :
    ∀ {members : List ConRef} {k : Nat} {r : ConRef},
      r ∈ classifyAt oracle k members o → r ∈ members := by
  intro members
  induction members with
  | nil => intro k r h; simp [classifyAt] at h
  | cons c rest ih =>
    intro k r h
    rw [classifyAt] at h
    rcases List.mem_append.mp h with h2 | h2
    · by_cases hoc : (oracle k).outcome = o
      · rw [if_pos hoc] at h2
        exact List.mem_cons.mpr (Or.inl (List.mem_singleton.mp h2))
      · rw [if_neg hoc] at h2
        exact absurd h2 (by simp)
    · exact List.mem_cons_of_mem _ (ih h2)

theorem classifyAt_get_mem {oracle : Nat → SolveResult} {o : SolveOutcome} :
    ∀ (members : List ConRef), (members.map ConRef.name).Nodup →
    ∀ (k i : Nat) (hi : i < members.length),
      (members.get ⟨i, hi⟩ ∈ classifyAt oracle k members o ↔
        (oracle (k + i)).outcome = o) := by
  intro members
  induction members with
  | nil => intro _ k i hi; exact absurd hi (by simp)
  | cons c rest ih =>
    intro hnd k i hi
    have hhead : ¬c.name ∈ rest.map ConRef.name := by
      rw [List.map_cons, List.nodup_cons] at hnd
      exact hnd.1
    have hndr : (rest.map ConRef.name).Nodup := by
      rw [List.map_cons, List.nodup_cons] at hnd
      exact hnd.2
    cases i with
    | zero =>
      show c ∈ _ ↔ _
      rw [classifyAt]
      constructor
      · intro h
        rcases List.mem_append.mp h with h2 | h2
        · by_cases hoc : (oracle k).outcome = o
          · simpa using hoc
          · rw [if_neg hoc] at h2
            exact absurd h2 (by simp)
        · exact absurd (List.mem_map_of_mem ConRef.name (classifyAt_subset h2)) hhead
      · intro h
        apply List.mem_append.mpr
        left
        rw [if_pos (by simpa using h)]
        exact List.mem_singleton.mpr rfl
    | succ j =>
      have hj : j < rest.length := by
        simp only [List.length_cons] at hi
        omega
      have hget : (c :: rest).get ⟨j + 1, hi⟩ = rest.get ⟨j, hj⟩ := rfl
      rw [hget, classifyAt]
      have hne : rest.get ⟨j, hj⟩ ≠ c := by
        intro h
        exact hhead (by rw [← h]; exact List.mem_map_of_mem _ (rest.get_mem _ _))
      constructor
      · intro h
        rcases List.mem_append.mp h with h2 | h2
        · by_cases hoc : (oracle k).outcome = o
          · rw [if_pos hoc] at h2
            exact absurd (List.mem_singleton.mp h2) hne
          · rw [if_neg hoc] at h2
            exact absurd h2 (by simp)
        · have h3 := (ih hndr (k + 1) j hj).mp h2
          rw [show k + 1 + j = k + (j + 1) by omega] at h3
          exact h3
      · intro h
        apply List.mem_append.mpr
        right
        apply (ih hndr (k + 1) j hj).mpr
        rw [show k + 1 + j = k + (j + 1) by omega]
        exact h

/-- C1: the deletion sweep tests every elastic filter member once, in filter
iteration order (one re-solve per member, in sequence): a member whose test
solve raises an evaluation failure is reactivated and recorded as a guard; a
member whose test solve reports optimal termination is reactivated and
recorded in the reported MIS (the deletion filter output); a member whose
test solve terminates non-optimally is left permanently deactivated and
appears in neither the reported MIS nor the guards. -/
theorem C1_deletion_sweep_classification (ctx : Ctx) (members : List ConRef)
    (st : DState) (hg : st.guards = []) (hm : st.misList = [])
    (hnd : (members.map ConRef.name).Nodup) :
    (deletion_sweep ctx members st).guards =
      classifyAt ctx.oracle st.solveCount members SolveOutcome.failure ∧
    (deletion_sweep ctx members st).misList =
      classifyAt ctx.oracle st.solveCount members SolveOutcome.optimal ∧
    (deletion_sweep ctx members st).sweepTests = st.sweepTests + members.length ∧
    (deletion_sweep ctx members st).solveCount = st.solveCount + members.length ∧
    (∀ (i : Nat) (hi : i < members.length),
      (members.get ⟨i, hi⟩ ∈ (deletion_sweep ctx members st).guards ↔
        (ctx.oracle (st.solveCount + i)).outcome = SolveOutcome.failure) ∧
      (members.get ⟨i, hi⟩ ∈ (deletion_sweep ctx members st).misList ↔
        (ctx.oracle (st.solveCount + i)).outcome = SolveOutcome.optimal) ∧
      ((findCon st.cons ((members.get ⟨i, hi⟩).name)).isSome = true →
        conActive (deletion_sweep ctx members st).cons ((members.get ⟨i, hi⟩).name) =
          (if (ctx.oracle (st.solveCount + i)).outcome = SolveOutcome.nonOptimal
            then false else true))) := by
  refine ⟨?_, ?_, deletion_sweep_sweepTests ctx members st,
    deletion_sweep_solveCount ctx members st, ?_⟩
  · rw [deletion_sweep_guards ctx members st, hg, List.nil_append]
  · rw [deletion_sweep_misList ctx members st, hm, List.nil_append]
  · intro i hi
    refine ⟨?_, ?_, fun hs => deletion_sweep_conActive_get ctx members hnd st i hi hs⟩
    · rw [deletion_sweep_guards ctx members st, hg, List.nil_append]
      exact classifyAt_get_mem members hnd st.solveCount i hi
    · rw [deletion_sweep_misList ctx members st, hm, List.nil_append]
      exact classifyAt_get_mem members hnd st.solveCount i hi

/-- C1 witness: a one-member sweep whose test solve raises an evaluation
failure records the member among the guards and not in the MIS. -/
theorem C1_deletion_sweep_classification_witness :
    (deletion_sweep
        ⟨fun _ => ⟨SolveOutcome.failure, fun _ => 0, fun _ => 0⟩, 1, "m", []⟩
        [⟨"a", "a"⟩]
        ⟨[], [], [⟨"a", "a", none, "x", none, false, false, true⟩], [], [],
          [⟨"a", "a"⟩], [], [], [], "", defaultWriter, 0, 0, 0⟩).guards =
      classifyAt (fun _ => ⟨SolveOutcome.failure, fun _ => 0, fun _ => 0⟩) 0
        [⟨"a", "a"⟩] SolveOutcome.failure ∧
    (deletion_sweep
        ⟨fun _ => ⟨SolveOutcome.failure, fun _ => 0, fun _ => 0⟩, 1, "m", []⟩
        [⟨"a", "a"⟩]
        ⟨[], [], [⟨"a", "a", none, "x", none, false, false, true⟩], [], [],
          [⟨"a", "a"⟩], [], [], [], "", defaultWriter, 0, 0, 0⟩).misList =
      classifyAt (fun _ => ⟨SolveOutcome.failure, fun _ => 0, fun _ => 0⟩) 0
        [⟨"a", "a"⟩] SolveOutcome.optimal :=
  ⟨(C1_deletion_sweep_classification _ _ _ rfl rfl (by decide)).1,
   (C1_deletion_sweep_classification _ _ _ rfl rfl (by decide)).2.1⟩

/-! ### Phase 2 entry (C4) and the writer substitution (C7) -/

/-- C4: when the restricted model's confirming solve reports optimal
termination, phase 2 has already fixed every slack at zero, deactivated
every objective and deactivated every constraint outside the elastic filter;
it performs exactly that one solve, reports that no MIS could be determined,
runs no deletion sweep (no member test, no MIS/guard recording), and
restores the default writer. -/
theorem C4_phase2_confirm_optimal (ctx : Ctx) (st : DState)
    (hopt : (ctx.oracle st.solveCount).outcome = SolveOutcome.optimal) :
    (phase2 ctx st).2 = ExitKind.normal ∧
    (phase2 ctx st).1.sweepTests = st.sweepTests ∧
    (phase2 ctx st).1.misList = st.misList ∧
    (phase2 ctx st).1.guards = st.guards ∧
    (phase2 ctx st).1.msg =
      st.msg ++ "Could not determine Minimal Intractable System\n" ∧
    (phase2 ctx st).1.solveCount = st.solveCount + 1 ∧
    (∀ s ∈ (phase2 ctx st).1.slacks, s.fixed = true ∧ s.value = 0) ∧
    (∀ o ∈ (phase2 ctx st).1.objs, o.active = false) ∧
    (∀ c ∈ (phase2 ctx st).1.cons, ¬c.ref ∈ st.filter → c.active = false) ∧
    (phase2 ctx st).1.writer = defaultWriter := by
  refine ⟨?_, ?_, ?_, ?_, ?_, ?_, ?_, ?_, ?_, ?_⟩
  · simp [phase2, solveModified, hopt]
  · simp [phase2, solveModified, hopt]
  · simp [phase2, solveModified, hopt]
  · simp [phase2, solveModified, hopt]
  · simp [phase2, solveModified, hopt]
  · simp [phase2, solveModified, hopt]
  · intro s hs
    simp [phase2, solveModified, hopt] at hs
    obtain ⟨t, -, rfl⟩ := hs
    exact ⟨rfl, rfl⟩
  · intro o ho
    simp [phase2, solveModified, hopt] at ho
    obtain ⟨p, -, rfl⟩ := ho
    rfl
  · intro c hc h3
    simp [phase2, solveModified, hopt] at hc
    obtain ⟨d, -, rfl⟩ := hc
    by_cases hin : d.ref ∈ st.filter
    · rw [if_pos hin] at h3
      exact absurd hin h3
    · rw [if_neg hin]
  · simp [phase2, solveModified, hopt]

/-- C4 witness: with an optimal confirming solve on a minimal state, phase 2
exits normally, runs no sweep, reports that no MIS could be determined, and
restores the default writer. -/
theorem C4_phase2_confirm_optimal_witness :
    (phase2 ⟨fun _ => ⟨SolveOutcome.optimal, fun _ => 0, fun _ => 0⟩, 1, "m", []⟩
      ⟨[], [], [], [], [], [], [], [], [], "", defaultWriter, 0, 0, 0⟩).2
        = ExitKind.normal ∧
    (phase2 ⟨fun _ => ⟨SolveOutcome.optimal, fun _ => 0, fun _ => 0⟩, 1, "m", []⟩
      ⟨[], [], [], [], [], [], [], [], [], "", defaultWriter, 0, 0, 0⟩).1.sweepTests = 0 ∧
    (phase2 ⟨fun _ => ⟨SolveOutcome.optimal, fun _ => 0, fun _ => 0⟩, 1, "m", []⟩
      ⟨[], [], [], [], [], [], [], [], [], "", defaultWriter, 0, 0, 0⟩).1.msg
        = "" ++ "Could not determine Minimal Intractable System\n" ∧
    (phase2 ⟨fun _ => ⟨SolveOutcome.optimal, fun _ => 0, fun _ => 0⟩, 1, "m", []⟩
      ⟨[], [], [], [], [], [], [], [], [], "", defaultWriter, 0, 0, 0⟩).1.writer
        = defaultWriter :=
  ⟨(C4_phase2_confirm_optimal _ _ rfl).1,
   (C4_phase2_confirm_optimal _ _ rfl).2.1,
   (C4_phase2_confirm_optimal _ _ rfl).2.2.2.2.1,
   (C4_phase2_confirm_optimal _ _ rfl).2.2.2.2.2.2.2.2.2⟩

theorem get_results_ne_error {l : List ConRef}
    (h : ∀ c ∈ l, (renderPlain c.name c.localName).isOk = true) :
    ∀ (m e : String), get_results l m ≠ Except.error e := by
  induction l with
  | nil => intro m e hcontra; exact Except.noConfusion hcontra
  | cons c rest ih =>
    intro m e hcontra
    have hc := h c (List.mem_cons_self _ _)
    cases hr : renderPlain c.name c.localName with
    | error e2 =>
      rw [hr] at hc
      exact Bool.noConfusion hc
    | ok line =>
      rw [get_results, hr] at hcontra
      exact ih (fun d hd => h d (List.mem_cons_of_mem _ hd)) (m ++ line) e hcontra

theorem sweep_misList_renders (ctx : Ctx) (members : List ConRef) (st2 : DState)
    {P : ConRef → Prop} {ml : List ConRef} (hml : st2.misList = ml)
    (hm : ∀ c ∈ ml, P c) (hf : ∀ c ∈ members, P c) :
    ∀ c ∈ (deletion_sweep ctx members st2).misList, P c := by
  intro c hc
  rw [deletion_sweep_misList, hml] at hc
  rcases List.mem_append.mp hc with h | h
  · exact hm c h
  · exact hf c (classifyAt_subset h)

theorem sweep_guards_renders (ctx : Ctx) (members : List ConRef) (st2 : DState)
    {P : ConRef → Prop} {gl : List ConRef} (hgl : st2.guards = gl)
    (hg : ∀ c ∈ gl, P c) (hf : ∀ c ∈ members, P c) :
    ∀ c ∈ (deletion_sweep ctx members st2).guards, P c := by
  intro c hc
  rw [deletion_sweep_guards, hgl] at hc
  rcases List.mem_append.mp hc with h | h
  · exact hg c h
  · exact hf c (classifyAt_subset h)

/-- C7 counterexample: when the confirming solve of phase 2 raises an
evaluation failure, the `except` clause leaves `results = None` and
`pyo.check_optimal_termination(None)` raises an `AttributeError`, so phase 2
exits by that exception with the legacy `nl_v1` writer still registered —
the default writer is NOT re-registered on this execution path. -/
theorem C7_writer_counterexample :
    (phase2 ⟨fun _ => ⟨SolveOutcome.failure, fun _ => 0, fun _ => 0⟩, 1, "m", []⟩
      ⟨[], [], [], [], [], [], [], [], [], "", defaultWriter, 0, 0, 0⟩).2
      = ExitKind.raised "AttributeError" ∧
    (phase2 ⟨fun _ => ⟨SolveOutcome.failure, fun _ => 0, fun _ => 0⟩, 1, "m", []⟩
      ⟨[], [], [], [], [], [], [], [], [], "", defaultWriter, 0, 0, 0⟩).1.writer
      = "nl_v1" ∧
    (phase2 ⟨fun _ => ⟨SolveOutcome.failure, fun _ => 0, fun _ => 0⟩, 1, "m", []⟩
      ⟨[], [], [], [], [], [], [], [], [], "", defaultWriter, 0, 0, 0⟩).1.writer
      ≠ defaultWriter :=
  ⟨rfl, rfl, by decide⟩

/-- C7 (amended): the `nl_v1` writer substitution made for the
deletion-filter phase is undone on every execution path through phase 2 on
which the confirming solve does not raise an evaluation failure — whatever
outcome the confirming solve and every sweep solve have — provided the
MIS/guard report rendering does not raise (which holds for every filter
whose members render, in particular for bound constraints produced by the
transform); but when the confirming solve raises, `results` is `None`,
`check_optimal_termination(None)` raises an `AttributeError`, and the
routine ends with the legacy `nl_v1` writer still registered. -/
theorem C7_writer_amended (ctx : Ctx) (st : DState)
    (hf : ∀ c ∈ st.filter, (renderPlain c.name c.localName).isOk = true)
    (hm : ∀ c ∈ st.misList, (renderPlain c.name c.localName).isOk = true)
    (hg : ∀ c ∈ st.guards, (renderPlain c.name c.localName).isOk = true) :
    ((ctx.oracle st.solveCount).outcome ≠ SolveOutcome.failure →
      (phase2 ctx st).1.writer = defaultWriter) ∧
    ((ctx.oracle st.solveCount).outcome = SolveOutcome.failure →
      (phase2 ctx st).1.writer = "nl_v1" ∧
      (phase2 ctx st).2 = ExitKind.raised "AttributeError") := by
  constructor
  · intro hfail
    by_cases hopt : (ctx.oracle st.solveCount).outcome = SolveOutcome.optimal
    · simp [phase2, solveModified, hopt]
    · simp only [phase2, solveModified]
      rw [if_neg hfail, if_neg hopt]
      split
      next e heq =>
        refine absurd heq (get_results_ne_error ?_ _ _)
        refine sweep_misList_renders ctx _ _ ?_ hm hf
        rfl
      next m1 heq =>
        split
        next e2 heq2 =>
          refine absurd heq2 (get_results_ne_error ?_ _ _)
          refine sweep_guards_renders ctx _ _ ?_ hg hf
          rfl
        next m2 heq2 => rfl
  · intro hfail
    refine ⟨?_, ?_⟩ <;> simp [phase2, solveModified, hfail]

/-- C7 witness: with a non-optimal confirming solve and a one-member filter
that renders cleanly, the default writer is registered again after phase 2. -/
theorem C7_writer_amended_witness :
    (phase2 ⟨fun _ => ⟨SolveOutcome.nonOptimal, fun _ => 0, fun _ => 0⟩, 1, "m", []⟩
      ⟨[], [], [⟨"c1", "c1", none, "x", none, false, false, true⟩], [], [],
        [⟨"c1", "c1"⟩], [], [], [], "", defaultWriter, 0, 0, 0⟩).1.writer
      = defaultWriter :=
  (C7_writer_amended _ _ (by decide) (by decide) (by decide)).1 (by decide)

/-! ### The feasibility short circuit (C2) -/

theorem unfixBound_values {cons : List MCon} :
    ∀ {sl out : List Slack}, unfixBoundSlacks cons sl = Except.ok out →
      (∀ s ∈ sl, s.value = 0) → ∀ s ∈ out, s.value = 0 := by
  induction cons with
  | nil =>
    intro sl out h hz
    rw [unfixBoundSlacks] at h
    have h2 := Except.ok.inj h
    subst h2
    exact hz
  | cons c rest ih =>
    intro sl out h hz
    by_cases hb : c.isBound = true
    · rw [unfixBoundSlacks, if_pos hb] at h
      by_cases ha : sl.any (fun s => s.owner == c.name) = true
      · rw [if_pos ha] at h
        apply ih h
        intro s hs
        obtain ⟨t, ht, rfl⟩ := List.mem_map.mp hs
        by_cases ho : t.owner == c.name
        · rw [if_pos ho]
          exact hz t ht
        · rw [if_neg ho]
          exact hz t ht
      · rw [if_neg ha] at h
        exact Except.noConfusion h
    · rw [unfixBoundSlacks, if_neg hb] at h
      exact ih h hz

theorem setupSlacks_values {cons : List MCon} {slacks sl : List Slack}
    (h : setupSlacks cons slacks = Except.ok sl) :
    ∀ s ∈ sl, s.value = 0 := by
  apply unfixBound_values h
  intro s hs
  obtain ⟨t, ht, rfl⟩ := List.mem_map.mp hs
  rfl

theorem scan_id {tol : ℚ} {cons : List MCon} :
    ∀ {slacks : List Slack} {filter : List ConRef} {fixedS : List String} {msg : String},
      (∀ s ∈ slacks, ¬tol < s.value) →
      constraint_generator tol cons slacks filter fixedS msg =
        ⟨slacks, filter, fixedS, msg, [], false⟩ := by
  intro slacks
  induction slacks with
  | nil => intro f fx m _; rfl
  | cons s rest ih =>
    intro f fx m h
    have hs := h s (List.mem_cons_self _ _)
    simp only [constraint_generator, if_neg hs]
    rw [ih (fun t ht => h t (List.mem_cons_of_mem _ ht))]

/-- C2: when the very first solve of the elasticized clone reports optimal
termination and no slack value exceeds the tolerance, the routine terminates
by raising the "Found model ... to be feasible!" report; the deletion filter
never runs (no member test), the original model is never written back to,
the writer substitution never happens, and the clone retains the first
solve's values so the caller may load them into the original model and
re-solve it directly. -/
theorem C2_feasible_short_circuit (ctx : Ctx) (fuel : Nat) (inp : MisInput)
    (sl : List Slack) (hfuel : 0 < fuel)
    (hsetup : setupSlacks inp.cons inp.slacks = Except.ok sl)
    (hopt : (ctx.oracle 0).outcome = SolveOutcome.optimal)
    (hvals : ∀ n, (ctx.oracle 0).slackAssign n ≤ ctx.tol)
    (htol : 0 ≤ ctx.tol) :
    (compute_infeasibility_explanation ctx fuel inp).2 =
      ExitKind.raised ("Found model " ++ ctx.modelName ++ " to be feasible!") ∧
    (compute_infeasibility_explanation ctx fuel inp).1.sweepTests = 0 ∧
    (compute_infeasibility_explanation ctx fuel inp).1.writeBackCount = 0 ∧
    (compute_infeasibility_explanation ctx fuel inp).1.origVals = ctx.cache ∧
    (compute_infeasibility_explanation ctx fuel inp).1.writer = defaultWriter ∧
    (compute_infeasibility_explanation ctx fuel inp).1.modVals =
      assignVals (ctx.oracle 0).varAssign ctx.cache := by
  cases fuel with
  | zero => exact absurd hfuel (by omega)
  | succ f =>
    have hzero := setupSlacks_values hsetup
    have hno : ∀ s ∈ sl.map (fun s => if s.fixed = true then s
        else { s with value := (ctx.oracle 0).slackAssign (slackName s) }),
        ¬ctx.tol < s.value := by
      intro s hs
      obtain ⟨t, ht, rfl⟩ := List.mem_map.mp hs
      by_cases hfx : t.fixed = true
      · rw [if_pos hfx]
        show ¬ctx.tol < t.value
        rw [hzero t ht]
        exact not_lt.mpr htol
      · rw [if_neg hfx]
        exact not_lt.mpr (hvals _)
    refine ⟨?_, ?_, ?_, ?_, ?_, ?_⟩ <;>
      simp [compute_infeasibility_explanation, hsetup, phase1, solveModified, initState,
            hopt, constraint_loop, constraint_loop_while, scan_id hno, assignVals]

/-- C2 witness: a concrete already-feasible run (first solve optimal, all
slack values zero) raises the feasibility report with no sweep and no
write-back. -/
theorem C2_feasible_short_circuit_witness :
    (compute_infeasibility_explanation
        ⟨fun _ => ⟨SolveOutcome.optimal, fun _ => 7, fun _ => 0⟩, 1, "m", [("x", 5)]⟩ 1
        ⟨[⟨"c1", "c1", none, "x", none, false, false, true⟩], [], []⟩).2 =
      ExitKind.raised ("Found model " ++ "m" ++ " to be feasible!") ∧
    (compute_infeasibility_explanation
        ⟨fun _ => ⟨SolveOutcome.optimal, fun _ => 7, fun _ => 0⟩, 1, "m", [("x", 5)]⟩ 1
        ⟨[⟨"c1", "c1", none, "x", none, false, false, true⟩], [], []⟩).1.sweepTests = 0 ∧
    (compute_infeasibility_explanation
        ⟨fun _ => ⟨SolveOutcome.optimal, fun _ => 7, fun _ => 0⟩, 1, "m", [("x", 5)]⟩ 1
        ⟨[⟨"c1", "c1", none, "x", none, false, false, true⟩], [], []⟩).1.writeBackCount
      = 0 ∧
    (compute_infeasibility_explanation
        ⟨fun _ => ⟨SolveOutcome.optimal, fun _ => 7, fun _ => 0⟩, 1, "m", [("x", 5)]⟩ 1
        ⟨[⟨"c1", "c1", none, "x", none, false, false, true⟩], [], []⟩).1.origVals
      = [("x", 5)] ∧
    (compute_infeasibility_explanation
        ⟨fun _ => ⟨SolveOutcome.optimal, fun _ => 7, fun _ => 0⟩, 1, "m", [("x", 5)]⟩ 1
        ⟨[⟨"c1", "c1", none, "x", none, false, false, true⟩], [], []⟩).1.modVals
      = assignVals (fun _ => 7) [("x", 5)] :=
  ⟨(C2_feasible_short_circuit
      ⟨fun _ => ⟨SolveOutcome.optimal, fun _ => 7, fun _ => 0⟩, 1, "m", [("x", 5)]⟩ 1
      ⟨[⟨"c1", "c1", none, "x", none, false, false, true⟩], [], []⟩ [] (by decide) rfl rfl
      (by intro n; show (0 : ℚ) ≤ 1; decide) (by show (0 : ℚ) ≤ 1; decide)).1,
   (C2_feasible_short_circuit
      ⟨fun _ => ⟨SolveOutcome.optimal, fun _ => 7, fun _ => 0⟩, 1, "m", [("x", 5)]⟩ 1
      ⟨[⟨"c1", "c1", none, "x", none, false, false, true⟩], [], []⟩ [] (by decide) rfl rfl
      (by intro n; show (0 : ℚ) ≤ 1; decide) (by show (0 : ℚ) ≤ 1; decide)).2.1,
   (C2_feasible_short_circuit
      ⟨fun _ => ⟨SolveOutcome.optimal, fun _ => 7, fun _ => 0⟩, 1, "m", [("x", 5)]⟩ 1
      ⟨[⟨"c1", "c1", none, "x", none, false, false, true⟩], [], []⟩ [] (by decide) rfl rfl
      (by intro n; show (0 : ℚ) ≤ 1; decide) (by show (0 : ℚ) ≤ 1; decide)).2.2.1,
   (C2_feasible_short_circuit
      ⟨fun _ => ⟨SolveOutcome.optimal, fun _ => 7, fun _ => 0⟩, 1, "m", [("x", 5)]⟩ 1
      ⟨[⟨"c1", "c1", none, "x", none, false, false, true⟩], [], []⟩ [] (by decide) rfl rfl
      (by intro n; show (0 : ℚ) ≤ 1; decide) (by show (0 : ℚ) ≤ 1; decide)).2.2.2.1,
   (C2_feasible_short_circuit
      ⟨fun _ => ⟨SolveOutcome.optimal, fun _ => 7, fun _ => 0⟩, 1, "m", [("x", 5)]⟩ 1
      ⟨[⟨"c1", "c1", none, "x", none, false, false, true⟩], [], []⟩ [] (by decide) rfl rfl
      (by intro n; show (0 : ℚ) ≤ 1; decide) (by show (0 : ℚ) ≤ 1; decide)).2.2.2.2.2⟩

/-! ### The write-back frame (C3) -/

theorem assignVals_assignVals (f g : String → ℚ) (l : List (String × ℚ)) :
    assignVals f (assignVals g l) = assignVals f l := by
  simp [assignVals, List.map_map]

theorem insertRef_len_mono (c : ConRef) (l : List ConRef) :
    l.length ≤ (insertRef c l).length := by
  by_cases hc : c ∈ l <;> simp [insertRef, hc]

theorem cg_filter_len_mono {tol : ℚ} {cons : List MCon} :
    ∀ {slacks : List Slack} {filter : List ConRef} {fixedS : List String} {msg : String},
      filter.length ≤ (constraint_generator tol cons slacks filter fixedS msg).filter.length := by
  intro slacks
  induction slacks with
  | nil => intro f fx m; exact Nat.le_refl _
  | cons s rest ih =>
    intro f fx m
    by_cases hv : tol < s.value
    · cases hfc : findCon cons s.owner with
      | none =>
        simp only [constraint_generator, hv, hfc, if_true]
        exact Nat.le_refl _
      | some c =>
        cases hrw : renderWithValue c.name c.localName s.value with
        | error e =>
          simp only [constraint_generator, hv, hfc, hrw, if_true]
          exact Nat.le_refl _
        | ok line =>
          simp only [constraint_generator, hv, hfc, hrw, if_true]
          exact Nat.le_trans (insertRef_len_mono c.ref f) ih
    · simp only [constraint_generator, hv, if_false]
      exact ih

theorem clw_frame (ctx : Ctx) (rt : String) :
    ∀ (fuel : Nat) (st : DState),
      (constraint_loop_while ctx rt fuel st).1.origVals = st.origVals ∧
      (constraint_loop_while ctx rt fuel st).1.writeBackCount = st.writeBackCount ∧
      (constraint_loop_while ctx rt fuel st).1.sweepTests = st.sweepTests := by
  intro fuel
  induction fuel with
  | zero => intro st; exact ⟨rfl, rfl, rfl⟩
  | succ f ih =>
    intro st
    simp only [constraint_loop_while]
    by_cases he : (constraint_generator ctx.tol st.cons st.slacks st.filter
        st.fixedSlacks st.msg).err = true
    · rw [if_pos he]
      exact ⟨rfl, rfl, rfl⟩
    · rw [if_neg he]
      by_cases hl : (constraint_generator ctx.tol st.cons st.slacks st.filter
          st.fixedSlacks st.msg).filter.length = st.filter.length
      · rw [if_pos hl]
        exact ⟨rfl, rfl, rfl⟩
      · rw [if_neg hl]
        cases ho : (ctx.oracle st.solveCount).outcome with
        | failure =>
          simp only [solveModified, ho]
          refine ⟨?_, ?_, ?_⟩ <;> trivial
        | nonOptimal =>
          simp only [solveModified, ho]
          refine ⟨?_, ?_, ?_⟩ <;> trivial
        | optimal =>
          simp only [solveModified, ho]
          exact ih _

theorem clw_filter_len_mono (ctx : Ctx) (rt : String) :
    ∀ (fuel : Nat) (st : DState) (n : Nat), n ≤ st.filter.length →
      n ≤ (constraint_loop_while ctx rt fuel st).1.filter.length := by
  intro fuel
  induction fuel with
  | zero =>
    intro st n hn
    exact hn
  | succ f ih =>
    intro st n hn
    simp only [constraint_loop_while]
    by_cases he : (constraint_generator ctx.tol st.cons st.slacks st.filter
        st.fixedSlacks st.msg).err = true
    · rw [if_pos he]
      exact Nat.le_trans hn cg_filter_len_mono
    · rw [if_neg he]
      by_cases hl : (constraint_generator ctx.tol st.cons st.slacks st.filter
          st.fixedSlacks st.msg).filter.length = st.filter.length
      · rw [if_pos hl]
        exact Nat.le_trans hn cg_filter_len_mono
      · rw [if_neg hl]
        cases ho : (ctx.oracle st.solveCount).outcome with
        | failure =>
          simp only [solveModified, ho]
          exact Nat.le_trans hn cg_filter_len_mono
        | nonOptimal =>
          simp only [solveModified, ho]
          exact Nat.le_trans hn cg_filter_len_mono
        | optimal =>
          simp only [solveModified, ho]
          refine ih _ _ ?_
          exact Nat.le_trans hn cg_filter_len_mono

theorem clw_normal_grows (ctx : Ctx) (rt : String) :
    ∀ (fuel : Nat) (st : DState) (n : Nat), n ≤ st.filter.length →
      (constraint_loop_while ctx rt fuel st).2 = ExitKind.normal →
      n < (constraint_loop_while ctx rt fuel st).1.filter.length := by
  intro fuel
  induction fuel with
  | zero =>
    intro st n hn h
    exact absurd h (by simp [constraint_loop_while])
  | succ f ih =>
    intro st n hn
    simp only [constraint_loop_while]
    by_cases he : (constraint_generator ctx.tol st.cons st.slacks st.filter
        st.fixedSlacks st.msg).err = true
    · rw [if_pos he]
      intro h
      exact absurd h (by simp)
    · rw [if_neg he]
      by_cases hl : (constraint_generator ctx.tol st.cons st.slacks st.filter
          st.fixedSlacks st.msg).filter.length = st.filter.length
      · rw [if_pos hl]
        intro h
        exact absurd h (by simp)
      · rw [if_neg hl]
        have hlt : st.filter.length < (constraint_generator ctx.tol st.cons st.slacks
            st.filter st.fixedSlacks st.msg).filter.length :=
          Nat.lt_of_le_of_ne cg_filter_len_mono (fun h2 => hl h2.symm)
        cases ho : (ctx.oracle st.solveCount).outcome with
        | failure =>
          simp only [solveModified, ho]
          intro h
          exact absurd h (by simp)
        | nonOptimal =>
          simp only [solveModified, ho]
          intro h
          exact Nat.lt_of_le_of_lt hn hlt
        | optimal =>
          simp only [solveModified, ho]
          intro h
          refine ih _ _ ?_ h
          exact Nat.le_of_lt (Nat.lt_of_le_of_lt hn hlt)

theorem cl_frame (ctx : Ctx) (fuel : Nat) (rt : String) (st : DState) :
    (constraint_loop ctx fuel rt st).1.origVals = st.origVals ∧
    (constraint_loop ctx fuel rt st).1.writeBackCount = st.writeBackCount ∧
    (constraint_loop ctx fuel rt st).1.sweepTests = st.sweepTests := by
  simp only [constraint_loop]
  exact clw_frame ctx rt fuel _

theorem cl_filter_mono (ctx : Ctx) (fuel : Nat) (rt : String) (st : DState) (n : Nat)
    (hn : n ≤ st.filter.length) :
    n ≤ (constraint_loop ctx fuel rt st).1.filter.length := by
  simp only [constraint_loop]
  exact clw_filter_len_mono ctx rt fuel _ n hn

theorem cl_normal_grows (ctx : Ctx) (fuel : Nat) (rt : String) (st : DState) (n : Nat)
    (hn : n ≤ st.filter.length)
    (h : (constraint_loop ctx fuel rt st).2 = ExitKind.normal) :
    n < (constraint_loop ctx fuel rt st).1.filter.length := by
  simp only [constraint_loop] at h ⊢
  exact clw_normal_grows ctx rt fuel _ n hn h

theorem phase1c_frame (ctx : Ctx) (fuel : Nat) (st : DState) :
    (phase1c ctx fuel st).1.origVals = st.origVals ∧
    (phase1c ctx fuel st).1.writeBackCount = st.writeBackCount ∧
    (phase1c ctx fuel st).1.sweepTests = st.sweepTests := by
  cases ho : (ctx.oracle st.solveCount).outcome with
  | failure =>
    simp [phase1c, solveModified, ho]
  | nonOptimal =>
    simp [phase1c, solveModified, ho]
  | optimal =>
    simp only [phase1c, solveModified, ho]
    have h2 := cl_frame ctx fuel
      "inequality constraints, equality constraints, and/or variable bounds"
    refine ⟨?_, ?_, ?_⟩
    · exact (h2 _).1
    · exact (h2 _).2.1
    · exact (h2 _).2.2

theorem phase1c_filter_mono (ctx : Ctx) (fuel : Nat) (st : DState) (n : Nat)
    (hn : n ≤ st.filter.length) :
    n ≤ (phase1c ctx fuel st).1.filter.length := by
  cases ho : (ctx.oracle st.solveCount).outcome with
  | failure =>
    simp only [phase1c, solveModified, ho]
    exact hn
  | nonOptimal =>
    simp [phase1c, solveModified, ho]
    exact hn
  | optimal =>
    simp only [phase1c, solveModified, ho]
    exact cl_filter_mono ctx fuel _ _ n hn

theorem phase1b_frame (ctx : Ctx) (fuel : Nat) (st : DState) :
    (phase1b ctx fuel st).1.origVals = st.origVals ∧
    (phase1b ctx fuel st).1.writeBackCount = st.writeBackCount ∧
    (phase1b ctx fuel st).1.sweepTests = st.sweepTests := by
  simp only [phase1b]
  by_cases hu : (unfixNonEquality st.cons st.fixedSlacks st.slacks).2 = true
  · rw [if_pos hu]
    exact ⟨rfl, rfl, rfl⟩
  · rw [if_neg hu]
    cases ho : (ctx.oracle st.solveCount).outcome with
    | failure =>
      simp only [solveModified, ho]
      refine ⟨?_, ?_, ?_⟩ <;> trivial
    | nonOptimal =>
      simp [solveModified, ho]
      have h3 := phase1c_frame ctx fuel
      refine ⟨?_, ?_, ?_⟩
      · exact (h3 _).1
      · exact (h3 _).2.1
      · exact (h3 _).2.2
    | optimal =>
      simp [solveModified, ho]
      split
      next stX heq =>
        have h6 := congrArg Prod.fst heq
        have h7 : _ = stX := h6
        rw [← h7]
        refine ⟨?_, ?_, ?_⟩
        · rw [(phase1c_frame ctx fuel _).1]
          exact (cl_frame ctx fuel _ _).1
        · rw [(phase1c_frame ctx fuel _).2.1]
          exact (cl_frame ctx fuel _ _).2.1
        · rw [(phase1c_frame ctx fuel _).2.2]
          exact (cl_frame ctx fuel _ _).2.2
      next p heq =>
        exact cl_frame ctx fuel _ _

theorem phase1b_filter_mono (ctx : Ctx) (fuel : Nat) (st : DState) (n : Nat)
    (hn : n ≤ st.filter.length) :
    n ≤ (phase1b ctx fuel st).1.filter.length := by
  simp only [phase1b]
  by_cases hu : (unfixNonEquality st.cons st.fixedSlacks st.slacks).2 = true
  · rw [if_pos hu]
    exact hn
  · rw [if_neg hu]
    cases ho : (ctx.oracle st.solveCount).outcome with
    | failure =>
      simp only [solveModified, ho]
      exact hn
    | nonOptimal =>
      simp [solveModified, ho]
      exact phase1c_filter_mono ctx fuel _ n hn
    | optimal =>
      simp [solveModified, ho]
      split
      next stX heq =>
        have h7 : _ = stX := congrArg Prod.fst heq
        refine phase1c_filter_mono ctx fuel _ _ ?_
        rw [← h7]
        exact cl_filter_mono ctx fuel _ _ n hn
      next p heq =>
        exact cl_filter_mono ctx fuel _ _ n hn

theorem phase1_frame (ctx : Ctx) (fuel : Nat) (st : DState) :
    (phase1 ctx fuel st).1.origVals = st.origVals ∧
    (phase1 ctx fuel st).1.writeBackCount = st.writeBackCount ∧
    (phase1 ctx fuel st).1.sweepTests = st.sweepTests := by
  simp only [phase1]
  cases ho : (ctx.oracle st.solveCount).outcome with
  | failure =>
    simp only [solveModified, ho]
    refine ⟨?_, ?_, ?_⟩ <;> trivial
  | nonOptimal =>
    simp [solveModified, ho]
    have h3 := phase1b_frame ctx fuel
    refine ⟨?_, ?_, ?_⟩
    · exact (h3 _).1
    · exact (h3 _).2.1
    · exact (h3 _).2.2
  | optimal =>
    simp [solveModified, ho]
    split
    next stX heq =>
      have h7 : _ = stX := congrArg Prod.fst heq
      rw [← h7]
      refine ⟨?_, ?_, ?_⟩
      · rw [(phase1b_frame ctx fuel _).1]
        exact (cl_frame ctx fuel _ _).1
      · rw [(phase1b_frame ctx fuel _).2.1]
        exact (cl_frame ctx fuel _ _).2.1
      · rw [(phase1b_frame ctx fuel _).2.2]
        exact (cl_frame ctx fuel _ _).2.2
    next p heq =>
      exact cl_frame ctx fuel _ _

theorem phase1_filter_mono (ctx : Ctx) (fuel : Nat) (st : DState) (n : Nat)
    (hn : n ≤ st.filter.length) :
    n ≤ (phase1 ctx fuel st).1.filter.length := by
  simp only [phase1]
  cases ho : (ctx.oracle st.solveCount).outcome with
  | failure =>
    simp only [solveModified, ho]
    exact hn
  | nonOptimal =>
    simp [solveModified, ho]
    exact phase1b_filter_mono ctx fuel _ n hn
  | optimal =>
    simp [solveModified, ho]
    split
    next stX heq =>
      have h7 : _ = stX := congrArg Prod.fst heq
      refine phase1b_filter_mono ctx fuel _ _ ?_
      rw [← h7]
      exact cl_filter_mono ctx fuel _ _ n hn
    next p heq =>
      exact cl_filter_mono ctx fuel _ _ n hn

theorem phase2_frame (ctx : Ctx) (st : DState) :
    (phase2 ctx st).1.origVals = st.origVals ∧
    (phase2 ctx st).1.writeBackCount = st.writeBackCount := by
  by_cases hfail : (ctx.oracle st.solveCount).outcome = SolveOutcome.failure
  · simp [phase2, solveModified, hfail]
  by_cases hopt : (ctx.oracle st.solveCount).outcome = SolveOutcome.optimal
  · simp [phase2, solveModified, hopt, hfail]
  · simp only [phase2, solveModified]
    rw [if_neg hfail, if_neg hopt]
    split
    next e heq =>
      constructor
      · exact deletion_sweep_origVals ctx _ _
      · exact deletion_sweep_writeBackCount ctx _ _
    next m1 heq =>
      split
      next e2 heq2 =>
        constructor
        · exact deletion_sweep_origVals ctx _ _
        · exact deletion_sweep_writeBackCount ctx _ _
      next m2 heq2 =>
        constructor
        · exact deletion_sweep_origVals ctx _ _
        · exact deletion_sweep_writeBackCount ctx _ _

theorem writeBack_spec (ctx : Ctx) (st : DState) :
    (writeBack ctx st).1.writeBackCount = st.writeBackCount + 1 ∧
    (writeBack ctx st).1.origVals =
      assignVals (ctx.oracle st.solveCount).varAssign st.modVals ∧
    (writeBack ctx st).1.solveCount = st.solveCount + 1 := by
  cases ho : (ctx.oracle st.solveCount).outcome with
  | failure =>
    simp only [writeBack, solveOriginal, ho]
    refine ⟨?_, ?_, ?_⟩ <;> trivial
  | nonOptimal =>
    simp only [writeBack, solveOriginal, ho]
    refine ⟨?_, ?_, ?_⟩ <;> trivial
  | optimal =>
    simp only [writeBack, solveOriginal, ho]
    refine ⟨?_, ?_, ?_⟩ <;> trivial

theorem so_no_ne_opt :
    (SolveOutcome.nonOptimal = SolveOutcome.optimal) = False := by simp

theorem phase1c_empty (ctx : Ctx) (fuel : Nat) (st : DState) :
    (phase1c ctx fuel st).2 = ExitKind.normal →
    (phase1c ctx fuel st).1.filter.length = 0 →
    (ctx.oracle st.solveCount).outcome = SolveOutcome.nonOptimal ∧
    (phase1c ctx fuel st).1.modVals =
      assignVals (ctx.oracle st.solveCount).varAssign st.modVals ∧
    (phase1c ctx fuel st).1.solveCount = st.solveCount + 1 := by
  cases ho : (ctx.oracle st.solveCount).outcome with
  | failure =>
    simp only [phase1c, solveModified, ho]
    intro h
    exact absurd h (by simp)
  | nonOptimal =>
    simp only [phase1c, solveModified, ho]
    intro h1 h2
    refine ⟨?_, ?_, ?_⟩ <;> trivial
  | optimal =>
    simp only [phase1c, solveModified, ho, eq_self_iff_true, if_true]
    intro h1 h2
    exfalso
    have h9 := cl_normal_grows ctx fuel _ _ 0 (Nat.zero_le _) h1
    omega

theorem phase1b_empty (ctx : Ctx) (fuel : Nat) (st : DState) :
    (phase1b ctx fuel st).2 = ExitKind.normal →
    (phase1b ctx fuel st).1.filter.length = 0 →
    (ctx.oracle st.solveCount).outcome = SolveOutcome.nonOptimal ∧
    (ctx.oracle (st.solveCount + 1)).outcome = SolveOutcome.nonOptimal ∧
    (phase1b ctx fuel st).1.modVals =
      assignVals (ctx.oracle (st.solveCount + 1)).varAssign st.modVals ∧
    (phase1b ctx fuel st).1.solveCount = st.solveCount + 2 := by
  simp only [phase1b]
  by_cases hu : (unfixNonEquality st.cons st.fixedSlacks st.slacks).2 = true
  · rw [if_pos hu]
    intro h
    exact absurd h (by simp)
  · rw [if_neg hu]
    cases ho : (ctx.oracle st.solveCount).outcome with
    | failure =>
      simp only [solveModified, ho]
      intro h
      exact absurd h (by simp)
    | nonOptimal =>
      simp only [solveModified, ho, so_no_ne_opt, if_false]
      intro h1 h2
      obtain ⟨hA, hB, hC⟩ := phase1c_empty ctx fuel _ h1 h2
      refine ⟨?_, hA, ?_, hC⟩
      · trivial
      · exact hB.trans (assignVals_assignVals _ _ _)
    | optimal =>
      simp [solveModified, ho]
      split
      next stX heq =>
        intro h1 h2
        exfalso
        have hX : _ = ExitKind.normal := congrArg Prod.snd heq
        have h7 : _ = stX := congrArg Prod.fst heq
        have h9 := cl_normal_grows ctx fuel _ _ 0 (Nat.zero_le _) hX
        rw [h7] at h9
        have h10 := phase1c_filter_mono ctx fuel stX stX.filter.length (Nat.le_refl _)
        have h11 := List.length_eq_zero.mpr h2
        omega
      next p heq =>
        intro h1 h2
        rw [← h1] at heq
        exact heq _ rfl
theorem phase1_empty (ctx : Ctx) (fuel : Nat) (st : DState) :
    (phase1 ctx fuel st).2 = ExitKind.normal →
    (phase1 ctx fuel st).1.filter.length = 0 →
    (ctx.oracle st.solveCount).outcome = SolveOutcome.nonOptimal ∧
    (ctx.oracle (st.solveCount + 1)).outcome = SolveOutcome.nonOptimal ∧
    (ctx.oracle (st.solveCount + 2)).outcome = SolveOutcome.nonOptimal ∧
    (phase1 ctx fuel st).1.modVals =
      assignVals (ctx.oracle (st.solveCount + 2)).varAssign st.modVals ∧
    (phase1 ctx fuel st).1.solveCount = st.solveCount + 3 := by
  cases ho : (ctx.oracle st.solveCount).outcome with
  | failure =>
    simp only [phase1, solveModified, ho]
    intro h
    exact absurd h (by simp)
  | nonOptimal =>
    simp only [phase1, solveModified, ho, so_no_ne_opt, if_false]
    intro h1 h2
    obtain ⟨hA, hB, hC, hD⟩ := phase1b_empty ctx fuel _ h1 h2
    refine ⟨?_, hA, hB, ?_, hD⟩
    · trivial
    · exact hC.trans (assignVals_assignVals _ _ _)
  | optimal =>
    simp [phase1, solveModified, ho]
    split
    next stX heq =>
      intro h1 h2
      exfalso
      have hX : _ = ExitKind.normal := congrArg Prod.snd heq
      have h7 : _ = stX := congrArg Prod.fst heq
      have h9 := cl_normal_grows ctx fuel _ _ 0 (Nat.zero_le _) hX
      rw [h7] at h9
      have h10 := phase1b_filter_mono ctx fuel stX stX.filter.length (Nat.le_refl _)
      have h11 := List.length_eq_zero.mpr h2
      omega
    next p heq =>
      intro h1 h2
      rw [← h1] at heq
      exact heq _ rfl
/-- C3 (amended): the caller's original model is mutated only by the
write-back block, which runs at most once; but the write-back occurs exactly
when all three phase-1 solves of the elasticized clone terminate
non-optimally (the empty-elastic-filter path), not when the very first solve
is feasible, and it leaves the original model carrying the values of the
final direct solve of the original model whether or not that solve succeeds.
When no write-back happens the original model's variable values are
untouched. -/
theorem C3_writeback_frame (ctx : Ctx) (fuel : Nat) (inp : MisInput) :
    ((compute_infeasibility_explanation ctx fuel inp).1.writeBackCount = 0 →
      (compute_infeasibility_explanation ctx fuel inp).1.origVals = ctx.cache) ∧
    ((compute_infeasibility_explanation ctx fuel inp).1.writeBackCount ≠ 0 →
      (compute_infeasibility_explanation ctx fuel inp).1.writeBackCount = 1 ∧
      (ctx.oracle 0).outcome = SolveOutcome.nonOptimal ∧
      (ctx.oracle 1).outcome = SolveOutcome.nonOptimal ∧
      (ctx.oracle 2).outcome = SolveOutcome.nonOptimal ∧
      (compute_infeasibility_explanation ctx fuel inp).1.origVals =
        assignVals (ctx.oracle 3).varAssign ctx.cache) := by
  simp only [compute_infeasibility_explanation]
  split
  next e hs =>
    exact ⟨fun _ => rfl, fun h => absurd rfl h⟩
  next sl hs =>
    split
    next st1 hp =>
      have hfst0 : _ = st1 := congrArg Prod.fst hp
      have hsnd0 : _ = ExitKind.normal := congrArg Prod.snd hp
      have hw0 : st1.writeBackCount = 0 := by
        rw [← hfst0]
        exact (phase1_frame ctx fuel (initState ctx inp sl)).2.1
      have hov0 : st1.origVals = ctx.cache := by
        rw [← hfst0]
        exact (phase1_frame ctx fuel (initState ctx inp sl)).1
      by_cases hf : st1.filter.length = 0
      · rw [if_pos hf]
        have h2 : (phase1 ctx fuel (initState ctx inp sl)).1.filter.length = 0 := by
          rw [hfst0]; exact hf
        obtain ⟨hA, hB, hC, hD, hE⟩ :=
          phase1_empty ctx fuel (initState ctx inp sl) hsnd0 h2
        have hD1 : st1.modVals = assignVals (ctx.oracle 2).varAssign ctx.cache := by
          rw [← hfst0]; exact hD
        have hE1 : st1.solveCount = 3 := by
          rw [← hfst0]; exact hE
        have hwb := writeBack_spec ctx st1
        have hwc : (writeBack ctx st1).1.writeBackCount = 1 := by
          rw [hwb.1, hw0]
        have hwo : (writeBack ctx st1).1.origVals =
            assignVals (ctx.oracle 3).varAssign ctx.cache := by
          rw [hwb.2.1, hE1, hD1]
          exact assignVals_assignVals _ _ _
        split
        next st2 heq2 =>
          have hfst2 : _ = st2 := congrArg Prod.fst heq2
          have hX1 : (phase2 ctx st2).1.writeBackCount = 1 := by
            rw [(phase2_frame ctx st2).2, ← hfst2]
            exact hwc
          have hXo : (phase2 ctx st2).1.origVals =
              assignVals (ctx.oracle 3).varAssign ctx.cache := by
            rw [(phase2_frame ctx st2).1, ← hfst2]
            exact hwo
          refine ⟨fun h0 => absurd h0 (by rw [hX1]; decide),
                  fun _ => ⟨hX1, hA, hB, hC, hXo⟩⟩
        next heq2 =>
          refine ⟨fun h0 => absurd h0 (by rw [hwc]; decide),
                  fun _ => ⟨hwc, hA, hB, hC, hwo⟩⟩
      · rw [if_neg hf]
        refine ⟨fun _ => ?_, fun h => absurd ?_ h⟩
        · show (phase2 ctx st1).1.origVals = ctx.cache
          rw [(phase2_frame ctx st1).1]
          exact hov0
        · show (phase2 ctx st1).1.writeBackCount = 0
          rw [(phase2_frame ctx st1).2]
          exact hw0
    next heq =>
      refine ⟨fun _ => ?_, fun h => absurd ?_ h⟩
      · exact (phase1_frame ctx fuel (initState ctx inp sl)).1
      · exact (phase1_frame ctx fuel (initState ctx inp sl)).2.1
/-- C3 counterexample: with every solve of the clone terminating
non-optimally (the very first solve is not feasible) the routine exits
normally having performed the write-back once; the final direct solve of the
original model is also non-optimal (no feasible solution was found), yet the
original model's variable values end different from their initial values. -/
theorem C3_writeback_counterexample :
    ((⟨fun _ => ⟨SolveOutcome.nonOptimal, fun _ => 7, fun _ => 0⟩, 1, "m",
        [("x", 5)]⟩ : Ctx).oracle 0).outcome ≠ SolveOutcome.optimal ∧
    (compute_infeasibility_explanation
        ⟨fun _ => ⟨SolveOutcome.nonOptimal, fun _ => 7, fun _ => 0⟩, 1, "m", [("x", 5)]⟩ 1
        ⟨[⟨"c1", "c1", none, "x", none, false, false, true⟩], [], []⟩).2 =
      ExitKind.normal ∧
    (compute_infeasibility_explanation
        ⟨fun _ => ⟨SolveOutcome.nonOptimal, fun _ => 7, fun _ => 0⟩, 1, "m", [("x", 5)]⟩ 1
        ⟨[⟨"c1", "c1", none, "x", none, false, false, true⟩], [], []⟩).1.writeBackCount
      = 1 ∧
    ((⟨fun _ => ⟨SolveOutcome.nonOptimal, fun _ => 7, fun _ => 0⟩, 1, "m",
        [("x", 5)]⟩ : Ctx).oracle 3).outcome ≠ SolveOutcome.optimal ∧
    (compute_infeasibility_explanation
        ⟨fun _ => ⟨SolveOutcome.nonOptimal, fun _ => 7, fun _ => 0⟩, 1, "m", [("x", 5)]⟩ 1
        ⟨[⟨"c1", "c1", none, "x", none, false, false, true⟩], [], []⟩).1.origVals
      ≠ [("x", 5)] := by
  refine ⟨by decide, rfl, rfl, by decide, by decide⟩
/-- C3 witness: on the concrete all-non-optimal run the write-back count is
non-zero, and the amended frame theorem instantiates to show it is exactly
one with all three phase-1 solves non-optimal and the final values those of
the direct solve of the original model. -/
theorem C3_writeback_frame_witness :
    (compute_infeasibility_explanation
        ⟨fun _ => ⟨SolveOutcome.nonOptimal, fun _ => 8, fun _ => 0⟩, 1, "m", [("y", 4)]⟩ 1
        ⟨[⟨"c1", "c1", none, "y", none, false, false, true⟩], [], []⟩).1.writeBackCount
      ≠ 0 ∧
    ((compute_infeasibility_explanation
        ⟨fun _ => ⟨SolveOutcome.nonOptimal, fun _ => 8, fun _ => 0⟩, 1, "m", [("y", 4)]⟩ 1
        ⟨[⟨"c1", "c1", none, "y", none, false, false, true⟩], [], []⟩).1.writeBackCount
       = 1 ∧
     ((⟨fun _ => ⟨SolveOutcome.nonOptimal, fun _ => 8, fun _ => 0⟩, 1, "m",
         [("y", 4)]⟩ : Ctx).oracle 0).outcome = SolveOutcome.nonOptimal ∧
     ((⟨fun _ => ⟨SolveOutcome.nonOptimal, fun _ => 8, fun _ => 0⟩, 1, "m",
         [("y", 4)]⟩ : Ctx).oracle 1).outcome = SolveOutcome.nonOptimal ∧
     ((⟨fun _ => ⟨SolveOutcome.nonOptimal, fun _ => 8, fun _ => 0⟩, 1, "m",
         [("y", 4)]⟩ : Ctx).oracle 2).outcome = SolveOutcome.nonOptimal ∧
     (compute_infeasibility_explanation
        ⟨fun _ => ⟨SolveOutcome.nonOptimal, fun _ => 8, fun _ => 0⟩, 1, "m", [("y", 4)]⟩ 1
        ⟨[⟨"c1", "c1", none, "y", none, false, false, true⟩], [], []⟩).1.origVals =
       assignVals
         ((⟨fun _ => ⟨SolveOutcome.nonOptimal, fun _ => 8, fun _ => 0⟩, 1, "m",
             [("y", 4)]⟩ : Ctx).oracle 3).varAssign
         (⟨fun _ => ⟨SolveOutcome.nonOptimal, fun _ => 8, fun _ => 0⟩, 1, "m",
             [("y", 4)]⟩ : Ctx).cache) :=
  ⟨by decide,
   (C3_writeback_frame
      ⟨fun _ => ⟨SolveOutcome.nonOptimal, fun _ => 8, fun _ => 0⟩, 1, "m", [("y", 4)]⟩ 1
      ⟨[⟨"c1", "c1", none, "y", none, false, false, true⟩], [], []⟩).2 (by decide)⟩
